import Mathlib

/-!
Verification development for the dewey filesystem catalog
(`src/dewey/indices.py`, `src/dewey/catalog.py`, `src/dewey/collection.py`),
shallowly embedded in Lean.

Conventions of the embedding:
* Python dicts and BTrees (`OOBTree`, `IOBTree`, ...) are association lists
  `List (K × V)` with first-match lookup; `IITreeSet`/`IISet` rid-sets are
  `Finset Nat`.
* Python `str` is Lean `String`; `str.lower` is `lowerStr` (per-character
  `Char.toLower`, adequate for the ASCII paths at issue); `os.sep` is `'/'`.
* Code that can raise is embedded with `Except Err` when the raise happens
  before any mutation, and with `state × Option Err` when mutations made
  before the raise must be kept (a Python exception rolls nothing back).
-/

namespace Dewey

/-- The exception kinds raised by the embedded code. -/
inductive Err where
  | typeError
  | valueError
  | keyError
  | attributeError
  | nameError
  | assertionError
  deriving DecidableEq, Repr

instance {e a : Type} [DecidableEq e] [DecidableEq a] : DecidableEq (Except e a) := fun x y =>
  match x, y with
  | .error u, .error v =>
    if h : u = v then .isTrue (congrArg Except.error h)
    else .isFalse (fun hh => h (Except.error.inj hh))
  | .ok u, .ok v =>
    if h : u = v then .isTrue (congrArg Except.ok h)
    else .isFalse (fun hh => h (Except.ok.inj hh))
  | .error _, .ok _ => .isFalse (fun hh => Except.noConfusion hh)
  | .ok _, .error _ => .isFalse (fun hh => Except.noConfusion hh)

/-! ### Association-list dictionaries (embedding of Python dict / BTree maps) -/

section Dict

variable {K V : Type} [DecidableEq K]

/-- `m[k]` lookup (first match). -/
def dlookup : List (K × V) → K → Option V
  | [], _ => none
  | e :: rest, k => if e.1 = k then some e.2 else dlookup rest k

/-- `m[k] = v`: replace the binding in place if present, else append. -/
def dset : List (K × V) → K → V → List (K × V)
  | [], k, v => [(k, v)]
  | e :: rest, k, v => if e.1 = k then (k, v) :: rest else e :: dset rest k v

/-- `del m[k]` (removes every binding for `k`; keys are unique in practice). -/
def ddel : List (K × V) → K → List (K × V)
  | [], _ => []
  | e :: rest, k => if e.1 = k then ddel rest k else e :: ddel rest k

/-- The key list of a dictionary. -/
def dkeys (m : List (K × V)) : List K := m.map Prod.fst

theorem dlookup_dset_self (m : List (K × V)) (k : K) (v : V) :
    dlookup (dset m k v) k = some v := by
  induction m with
  | nil => simp [dset, dlookup]
  | cons e rest ih =>
    by_cases h : e.1 = k
    · simp [dset, h, dlookup]
    · simp [dset, h, dlookup, ih]

theorem dlookup_dset_ne (m : List (K × V)) {k k' : K} (v : V) (h : k' ≠ k) :
    dlookup (dset m k v) k' = dlookup m k' := by
  have h' : ¬ k = k' := fun hh => h hh.symm
  induction m with
  | nil => simp [dset, dlookup, h']
  | cons e rest ih =>
    by_cases he : e.1 = k
    · subst he
      simp [dset, dlookup, h']
    · simp [dset, he, dlookup, ih]

theorem dlookup_ddel (m : List (K × V)) (k k' : K) :
    dlookup (ddel m k) k' = if k' = k then none else dlookup m k' := by
  induction m with
  | nil => simp [ddel, dlookup]
  | cons e rest ih =>
    by_cases he : e.1 = k
    · by_cases hk : k' = k
      · subst hk
        simp [ddel, he, ih]
      · have hne : ¬ e.1 = k' := fun hh => hk ((hh.symm).trans he)
        have hne2 : ¬ k = k' := fun hh => hk hh.symm
        simp [ddel, he, ih, hk, dlookup, hne, hne2]
    · by_cases he' : e.1 = k'
      · have hk : ¬ k' = k := fun hh => he (he'.trans hh)
        simp [ddel, he, dlookup, he', hk]
      · simp [ddel, he, dlookup, he', ih]

theorem ddel_eq_filter (m : List (K × V)) (k : K) :
    ddel m k = m.filter (fun e => e.1 ≠ k) := by
  induction m with
  | nil => simp [ddel]
  | cons e rest ih =>
    by_cases he : e.1 = k
    · simp [ddel, he, ih, List.filter]
    · simp [ddel, he, ih, List.filter]

theorem mem_of_dlookup_eq_some {m : List (K × V)} {k : K} {v : V}
    (h : dlookup m k = some v) : (k, v) ∈ m := by
  induction m with
  | nil => simp [dlookup] at h
  | cons e rest ih =>
    by_cases he : e.1 = k
    · simp [dlookup, he] at h
      cases e
      simp_all
    · simp [dlookup, he] at h
      exact List.mem_cons_of_mem _ (ih h)

theorem dlookup_isSome_iff_mem_dkeys (m : List (K × V)) (k : K) :
    (dlookup m k).isSome ↔ k ∈ dkeys m := by
  induction m with
  | nil => simp [dlookup, dkeys]
  | cons e rest ih =>
    by_cases he : e.1 = k
    · subst he
      simp [dlookup, dkeys]
    · have hne : ¬ k = e.1 := fun hh => he hh.symm
      simp [dlookup, he, dkeys, ih, hne]

theorem dkeys_dset_of_present (m : List (K × V)) (k : K) (v : V)
    (h : (dlookup m k).isSome) : dkeys (dset m k v) = dkeys m := by
  induction m with
  | nil => simp [dlookup] at h
  | cons e rest ih =>
    by_cases he : e.1 = k
    · simp [dset, he, dkeys]
    · simp only [dlookup, if_neg he] at h
      have := ih h
      simp only [dkeys, List.map] at this ⊢
      simp [dset, he, this]

theorem dset_of_absent (m : List (K × V)) (k : K) (v : V)
    (h : dlookup m k = none) : dset m k v = m ++ [(k, v)] := by
  induction m with
  | nil => simp [dset]
  | cons e rest ih =>
    by_cases he : e.1 = k
    · simp [dlookup, he] at h
    · simp [dlookup, he] at h
      simp [dset, he, ih h]

end Dict

/-! ### Rid-set valued dictionaries -/

/-- A set of rids (`IISet` / `IITreeSet`). -/
abbrev RSet := Finset Nat

section RDict

variable {K : Type} [DecidableEq K]

/-- `if k in index: index[k].insert(rid) else: index[k] = IITreeSet([rid])`. -/
def addTo (m : List (K × RSet)) (k : K) (rid : Nat) : List (K × RSet) :=
  match dlookup m k with
  | some s => dset m k (insert rid s)
  | none => dset m k {rid}

/-- `index.get(k, IISet())`. -/
def lookupD (m : List (K × RSet)) (k : K) : RSet := (dlookup m k).getD ∅

theorem mem_lookupD_addTo (m : List (K × RSet)) (k : K) (rid : Nat) :
    rid ∈ lookupD (addTo m k rid) k := by
  unfold addTo
  cases h : dlookup m k with
  | none => simp [lookupD, dlookup_dset_self]
  | some s => simp [lookupD, dlookup_dset_self]

theorem lookupD_addTo_mono (m : List (K × RSet)) (k k' : K) (r x : Nat)
    (h : x ∈ lookupD m k') : x ∈ lookupD (addTo m k r) k' := by
  unfold addTo
  by_cases hk : k' = k
  · subst hk
    cases hm : dlookup m k' with
    | none => simp [lookupD, hm] at h
    | some s =>
      simp [lookupD, hm] at h
      simp [hm, lookupD, dlookup_dset_self, Finset.mem_insert_of_mem h]
  · cases hm : dlookup m k with
    | none => simpa [lookupD, dlookup_dset_ne _ _ hk] using h
    | some s => simpa [lookupD, dlookup_dset_ne _ _ hk] using h

end RDict

/-! ### Generic fold lemmas -/

theorem foldl_pres {σ α : Type} (f : σ → α → σ) (P : σ → Prop)
    (hp : ∀ s a, P s → P (f s a)) :
    ∀ (l : List α) (s : σ), P s → P (l.foldl f s) := by
  intro l
  induction l with
  | nil => intro s hs; simpa using hs
  | cons a rest ih => intro s hs; exact ih (f s a) (hp s a hs)

theorem foldl_est {σ α : Type} (f : σ → α → σ) (P : σ → Prop)
    (hp : ∀ s a, P s → P (f s a)) {a : α} (ha : ∀ s, P (f s a)) :
    ∀ (l : List α), a ∈ l → ∀ s : σ, P (l.foldl f s) := by
  intro l
  induction l with
  | nil => intro h; simp at h
  | cons b rest ih =>
    intro h s
    rcases List.mem_cons.mp h with h | h
    · subst h
      exact foldl_pres f P hp rest (f s a) (ha s)
    · exact ih h (f s b)

/-! ### String utilities (Python `str` operations over `os.sep = '/'`) -/

/-- Python `str.lower()` (per-character). -/
def lowerStr (s : String) : String := ⟨s.data.map Char.toLower⟩

/-- Python slice `s[a:b]` (in-range uses only). -/
def slice (s : String) (a b : Nat) : String := ⟨(s.data.drop a).take (b - a)⟩

/-- `len(s)`. -/
def strLen (s : String) : Nat := s.data.length

theorem take_len_append {α : Type} (l t : List α) : (l ++ t).take l.length = l := by
  induction l with
  | nil => simp
  | cons a rest ih => simp [ih]

theorem drop_len_append {α : Type} (l t : List α) : (l ++ t).drop l.length = t := by
  induction l with
  | nil => simp
  | cons a rest ih => simp [ih]

theorem slice_of_prefix {v p : String} (h : p.data <+: v.data) :
    slice v 0 (strLen p) = p := by
  obtain ⟨t, ht⟩ := h
  have : v.data.take p.data.length = p.data := by
    rw [← ht]; exact take_len_append _ _
  unfold slice strLen
  cases p
  simp_all

theorem slice_of_suffix {v s : String} (h : s.data <:+ v.data) :
    slice v (strLen v - strLen s) (strLen v) = s := by
  obtain ⟨t, ht⟩ := h
  have hlen : strLen v = t.length + strLen s := by
    unfold strLen; rw [← ht]; simp
  have hd : v.data.drop t.length = s.data := by
    rw [← ht]; exact drop_len_append _ _
  have h1 : strLen v - strLen s = t.length := by omega
  have h2 : strLen v - (strLen v - strLen s) = strLen s := by omega
  unfold slice
  rw [h2, h1, hd]
  cases s
  simp [strLen]

theorem slice_of_infix {v m : String} (h : m.data <:+: v.data) :
    ∃ k, k + strLen m ≤ strLen v ∧ slice v k (k + strLen m) = m := by
  obtain ⟨t, u, htu⟩ := h
  refine ⟨t.length, ?_, ?_⟩
  · have hlen : v.data.length = t.length + m.data.length + u.length := by
      rw [← htu]; simp; omega
    unfold strLen
    omega
  · unfold slice
    have hd : v.data.drop t.length = m.data ++ u := by
      rw [← htu, List.append_assoc]; exact drop_len_append _ _
    have : t.length + strLen m - t.length = strLen m := by omega
    rw [this, hd]
    cases m
    simp [strLen, take_len_append]

/-! ### The `String` index (`indices.py`, class `String`)

Named `StringIndex` here because `String` is taken by Lean's string type. -/

/-- One element of the `OOSet` stored under `rids[rid]`.  For the String
index these are plain substrings (`str`); after `Path.learn` the same
attribute also receives `(level, part)` tuples (`tok`), because `Path.reset`
rebinds `self.rids` and both classes write into the one attribute. -/
inductive STok where
  | str (s : String)
  | tok (lp : Nat × String)
  deriving DecidableEq, Repr

/-- Python 2 comparison used by the OOSet: strings sort among themselves
lexicographically by character ordinal; every `str` sorts before every
`tuple` (Python 2 orders distinct types by type name, `'str' < 'tuple'`). -/
def charListLt : List Char → List Char → Bool
  | [], [] => false
  | [], _ :: _ => true
  | _ :: _, [] => false
  | a :: as, b :: bs =>
    if a.toNat < b.toNat then true
    else if a.toNat = b.toNat then charListLt as bs
    else false

def strLt (a b : String) : Bool := charListLt a.data b.data

def stokLt : STok → STok → Bool
  | .str a, .str b => strLt a b
  | .str _, .tok _ => true
  | .tok _, .str _ => false
  | .tok (l1, p1), .tok (l2, p2) =>
    if l1 < l2 then true else if l1 = l2 then strLt p1 p2 else false

/-- `OOSet.insert`: keep the list sorted and without duplicates. -/
def osetInsert (l : List STok) (t : STok) : List STok :=
  match l with
  | [] => [t]
  | h :: rest =>
    if stokLt t h then t :: h :: rest
    else if t = h then h :: rest
    else h :: osetInsert rest t

/-- State of an `indices.String` instance: the persistent attributes set up
by `String.reset`. -/
structure StringIndex where
  case_sensitive : Bool
  values : List (String × RSet)
  beginnings : List (String × RSet)
  endings : List (String × RSet)
  middles : List (String × RSet)
  rids : List (Nat × List STok)
  deriving DecidableEq

/-- `String.reset` (as called from `__init__`). -/
def StringIndex.reset (case_sensitive : Bool) : StringIndex :=
  ⟨case_sensitive, [], [], [], [], []⟩

/-- `if not self.case_sensitive: value = value.lower()`. -/
def procV (cs : Bool) (v : String) : String := if cs then v else lowerStr v

/-- The inner `for k in range(len(value)-i)` loop body of `String.learn`:
adds `value[k:k+j]` to `middles` and to the `substrings` OOSet. -/
def learnInner (value : String) (rid j : Nat)
    (acc : List (String × RSet) × List STok) (k : Nat) :
    List (String × RSet) × List STok :=
  (addTo acc.1 (slice value k (k + j)) rid,
   osetInsert acc.2 (.str (slice value k (k + j))))

/-- The outer `for i in range(len(value))` loop body of `String.learn`:
adds `value[:j]` to `beginnings`, runs the middles loop, adds `value[i:]`
to `endings`, where `j = i + 1`. -/
def learnStep (value : String) (rid : Nat)
    (acc : List (String × RSet) × List (String × RSet) × List (String × RSet) × List STok)
    (i : Nat) :
    List (String × RSet) × List (String × RSet) × List (String × RSet) × List STok :=
  let b := addTo acc.1 (slice value 0 (i + 1)) rid
  let ms := (List.range (strLen value - i)).foldl (learnInner value rid (i + 1)) (acc.2.1, acc.2.2.2)
  let e := addTo acc.2.2.1 (slice value i (strLen value)) rid
  (b, ms.1, e, ms.2)

/-- `String.learn(self, rid, value)`.  The `isinstance(value, basestring)`
check cannot fire in the typed embedding; the rest is mirrored: lowercase
if case-insensitive, insert into `values`, walk all substrings inserting
into `beginnings`/`middles`/`endings`, then overwrite `rids[rid]` with the
accumulated substring OOSet. -/
def StringIndex.learn (st : StringIndex) (rid : Nat) (value : String) : StringIndex :=
  let value := procV st.case_sensitive value
  let values' := addTo st.values value rid
  let r := (List.range (strLen value)).foldl (learnStep value rid)
    (st.beginnings, st.middles, st.endings, [])
  { st with values := values', beginnings := r.1, middles := r.2.1,
            endings := r.2.2.1, rids := dset st.rids rid r.2.2.2 }

/-- The substring OOSet `String.learn` stores under `rids[rid]` for a
given (already case-processed) value, computed on its own. -/
def subsOf (value : String) : List STok :=
  (List.range (strLen value)).foldl
    (fun subs i =>
      (List.range (strLen value - i)).foldl
        (fun subs k => osetInsert subs (.str (slice value k (k + (i + 1))))) subs)
    []

/-- `String.forget(self, rid)`.  This method is broken in the source:

* `self.rids[rid]` raises `KeyError` if the rid was never learned;
* otherwise it walks the stored OOSet in sorted order, and for each
  substring first does `self.values[substring].remove(rid)` — a `KeyError`
  unless the substring happens to be a full stored value holding the rid —
  and then evaluates `len(self.substrings[substring])`, where
  `self.substrings` is never defined anywhere, an unconditional
  `AttributeError`;
* only when the OOSet is empty (a learned empty-string value) does the
  loop body never run, and `del self.rids[rid]` succeeds — leaving the
  `values['']` entry behind.

Mutations made before the raise are kept, so the result is a pair of the
(possibly partially mutated) state and the exception, if any. -/
def StringIndex.forget (st : StringIndex) (rid : Nat) : StringIndex × Option Err :=
  match dlookup st.rids rid with
  | none => (st, some .keyError)
  | some subs =>
    match subs with
    | [] => ({ st with rids := ddel st.rids rid }, none)
    | t :: _ =>
      match t with
      | .tok _ => (st, some .keyError)
      | .str s =>
        match dlookup st.values s with
        | none => (st, some .keyError)
        | some setv =>
          if rid ∈ setv then
            ({ st with values := dset st.values s (setv.erase rid) }, some .attributeError)
          else (st, some .keyError)

/-- `String._substring(self, index, arg)`: lowercase the argument when the
index is case-insensitive, then `index.get(arg, IISet())`. -/
def substringSearch (cs : Bool) (index : List (String × RSet)) (arg : String) : RSet :=
  lookupD index (procV cs arg)

def StringIndex.is_ (st : StringIndex) (arg : String) : RSet :=
  substringSearch st.case_sensitive st.values arg

def StringIndex.startswith (st : StringIndex) (arg : String) : RSet :=
  substringSearch st.case_sensitive st.beginnings arg

def StringIndex.contains (st : StringIndex) (arg : String) : RSet :=
  substringSearch st.case_sensitive st.middles arg

def StringIndex.endswith (st : StringIndex) (arg : String) : RSet :=
  substringSearch st.case_sensitive st.endings arg

/-! ### Lemmas about `StringIndex.learn` -/

theorem procV_data (cs : Bool) (v : String) :
    (procV cs v).data = if cs then v.data else v.data.map Char.toLower := by
  cases cs <;> simp [procV, lowerStr]

theorem procV_ne_nil (cs : Bool) {p : String} (h : p.data ≠ []) :
    (procV cs p).data ≠ [] := by
  cases cs <;> simp [procV, lowerStr, h]

theorem procV_pre (cs : Bool) {p v : String} (h : p.data <+: v.data) :
    (procV cs p).data <+: (procV cs v).data := by
  cases cs with
  | true => simpa [procV] using h
  | false =>
    obtain ⟨t, ht⟩ := h
    exact ⟨t.map Char.toLower, by simp [procV, lowerStr, ← ht]⟩

theorem procV_suffix (cs : Bool) {p v : String} (h : p.data <:+ v.data) :
    (procV cs p).data <:+ (procV cs v).data := by
  cases cs with
  | true => simpa [procV] using h
  | false =>
    obtain ⟨t, ht⟩ := h
    exact ⟨t.map Char.toLower, by simp [procV, lowerStr, ← ht]⟩

theorem procV_inf (cs : Bool) {p v : String} (h : p.data <:+: v.data) :
    (procV cs p).data <:+: (procV cs v).data := by
  cases cs with
  | true => simpa [procV] using h
  | false =>
    obtain ⟨t, u, ht⟩ := h
    exact ⟨t.map Char.toLower, u.map Char.toLower, by simp [procV, lowerStr, ← ht]⟩

theorem strLen_procV (cs : Bool) (v : String) : strLen (procV cs v) = strLen v := by
  cases cs <;> simp [procV, strLen, lowerStr]

theorem learnStep_pres_b (v : String) (rid x : Nat) (q : String) :
    ∀ acc i, x ∈ lookupD acc.1 q → x ∈ lookupD (learnStep v rid acc i).1 q := by
  intro acc i h
  exact lookupD_addTo_mono _ _ _ _ _ h

theorem learnStep_pres_m (v : String) (rid x : Nat) (q : String) :
    ∀ acc i, x ∈ lookupD acc.2.1 q → x ∈ lookupD (learnStep v rid acc i).2.1 q := by
  intro acc i h
  unfold learnStep
  simp only
  have := foldl_pres (learnInner v rid (i + 1))
    (fun p => x ∈ lookupD p.1 q)
    (fun s a hs => lookupD_addTo_mono _ _ _ _ _ hs)
    (List.range (strLen v - i)) (acc.2.1, acc.2.2.2) h
  exact this

theorem learnStep_pres_e (v : String) (rid x : Nat) (q : String) :
    ∀ acc i, x ∈ lookupD acc.2.2.1 q → x ∈ lookupD (learnStep v rid acc i).2.2.1 q := by
  intro acc i h
  exact lookupD_addTo_mono _ _ _ _ _ h

theorem learn_mem_values (st : StringIndex) (rid : Nat) (v : String) :
    rid ∈ lookupD (st.learn rid v).values (procV st.case_sensitive v) := by
  unfold StringIndex.learn
  simp only
  exact mem_lookupD_addTo _ _ _

theorem learn_mem_beginnings (st : StringIndex) (rid : Nat) (v : String)
    {q : String} (hne : q.data ≠ [])
    (hp : q.data <+: (procV st.case_sensitive v).data) :
    rid ∈ lookupD (st.learn rid v).beginnings q := by
  set v' := procV st.case_sensitive v with hv'
  have hq : slice v' 0 (strLen q) = q := slice_of_prefix hp
  have hlen : strLen q ≤ strLen v' := by
    unfold strLen; exact hp.length_le
  have hpos : 1 ≤ strLen q := by
    unfold strLen; cases hq' : q.data with
    | nil => exact absurd hq' hne
    | cons a l => simp [hq']
  have hi : strLen q - 1 ∈ List.range (strLen v') := by
    simp [List.mem_range]; omega
  have hkey : slice v' 0 (strLen q - 1 + 1) = q := by
    have : strLen q - 1 + 1 = strLen q := by omega
    rw [this, hq]
  unfold StringIndex.learn
  simp only
  refine foldl_est (learnStep v' rid)
    (fun acc => rid ∈ lookupD acc.1 q)
    (learnStep_pres_b v' rid rid q) ?_ _ hi _
  intro acc
  unfold learnStep
  simp only
  rw [hkey]
  exact mem_lookupD_addTo _ _ _

theorem learn_mem_endings (st : StringIndex) (rid : Nat) (v : String)
    {q : String} (hne : q.data ≠ [])
    (hp : q.data <:+ (procV st.case_sensitive v).data) :
    rid ∈ lookupD (st.learn rid v).endings q := by
  set v' := procV st.case_sensitive v with hv'
  have hq : slice v' (strLen v' - strLen q) (strLen v') = q := slice_of_suffix hp
  have hlen : strLen q ≤ strLen v' := by
    unfold strLen; exact hp.length_le
  have hpos : 1 ≤ strLen q := by
    unfold strLen; cases hq' : q.data with
    | nil => exact absurd hq' hne
    | cons a l => simp [hq']
  have hi : strLen v' - strLen q ∈ List.range (strLen v') := by
    simp [List.mem_range]; omega
  unfold StringIndex.learn
  simp only
  refine foldl_est (learnStep v' rid)
    (fun acc => rid ∈ lookupD acc.2.2.1 q)
    (learnStep_pres_e v' rid rid q) ?_ _ hi _
  intro acc
  unfold learnStep
  simp only
  rw [hq]
  exact mem_lookupD_addTo _ _ _

theorem learn_mem_middles (st : StringIndex) (rid : Nat) (v : String)
    {q : String} (hne : q.data ≠ [])
    (hp : q.data <:+: (procV st.case_sensitive v).data) :
    rid ∈ lookupD (st.learn rid v).middles q := by
  set v' := procV st.case_sensitive v with hv'
  obtain ⟨k, hk, hq⟩ := slice_of_infix hp
  have hpos : 1 ≤ strLen q := by
    unfold strLen; cases hq' : q.data with
    | nil => exact absurd hq' hne
    | cons a l => simp [hq']
  have hi : strLen q - 1 ∈ List.range (strLen v') := by
    simp [List.mem_range]; omega
  have hkmem : k ∈ List.range (strLen v' - (strLen q - 1)) := by
    simp [List.mem_range]; omega
  have hkey : slice v' k (k + (strLen q - 1 + 1)) = q := by
    have : strLen q - 1 + 1 = strLen q := by omega
    rw [this, hq]
  unfold StringIndex.learn
  simp only
  refine foldl_est (learnStep v' rid)
    (fun acc => rid ∈ lookupD acc.2.1 q)
    (learnStep_pres_m v' rid rid q) ?_ _ hi _
  intro acc
  unfold learnStep
  simp only
  refine foldl_est (learnInner v' rid (strLen q - 1 + 1))
    (fun p => rid ∈ lookupD p.1 q)
    (fun s a hs => lookupD_addTo_mono _ _ _ _ _ hs) ?_ _ hkmem _
  intro p
  unfold learnInner
  simp only
  rw [hkey]
  exact mem_lookupD_addTo _ _ _

theorem learn_case_sensitive (st : StringIndex) (rid : Nat) (v : String) :
    (st.learn rid v).case_sensitive = st.case_sensitive := rfl

theorem learn_values_eq (st : StringIndex) (rid : Nat) (v : String) :
    (st.learn rid v).values = addTo st.values (procV st.case_sensitive v) rid := rfl

theorem inner_fold_snd (v : String) (rid j : Nat) :
    ∀ (l : List Nat) (m : List (String × RSet)) (subs : List STok),
      (l.foldl (learnInner v rid j) (m, subs)).2 =
        l.foldl (fun s k => osetInsert s (.str (slice v k (k + j)))) subs := by
  intro l
  induction l with
  | nil => intro m subs; rfl
  | cons k rest ih => intro m subs; simp [List.foldl, learnInner, ih]

theorem step_fold_subs (v : String) (rid : Nat) :
    ∀ (l : List Nat) (b m e : List (String × RSet)) (subs : List STok),
      (l.foldl (learnStep v rid) (b, m, e, subs)).2.2.2 =
        l.foldl
          (fun s i =>
            (List.range (strLen v - i)).foldl
              (fun s k => osetInsert s (.str (slice v k (k + (i + 1))))) s)
          subs := by
  intro l
  induction l with
  | nil => intro b m e subs; rfl
  | cons i rest ih =>
    intro b m e subs
    simp only [List.foldl]
    rw [show learnStep v rid (b, m, e, subs) i =
      (addTo b (slice v 0 (i + 1)) rid,
       ((List.range (strLen v - i)).foldl (learnInner v rid (i + 1)) (m, subs)).1,
       addTo e (slice v i (strLen v)) rid,
       ((List.range (strLen v - i)).foldl (learnInner v rid (i + 1)) (m, subs)).2) from rfl]
    rw [ih, inner_fold_snd]

theorem learn_rids_self (st : StringIndex) (rid : Nat) (v : String) :
    dlookup (st.learn rid v).rids rid = some (subsOf (procV st.case_sensitive v)) := by
  unfold StringIndex.learn
  simp only
  rw [dlookup_dset_self]
  rw [step_fold_subs]
  rfl

/-- C6: for every String index, every rid, and every string value v learned
for that rid, `is_(v)` contains the rid, `startswith(p)` contains the rid
for every non-empty prefix p of v, `endswith(s)` for every non-empty suffix
s of v, and `contains(m)` for every non-empty contiguous substring m of v
(values and search arguments are lowercased first when the index is
case-insensitive). -/
theorem C6_string_learn_substring_completeness (st : StringIndex) (rid : Nat) (v : String) :
    rid ∈ (st.learn rid v).is_ v ∧
    (∀ p : String, p.data ≠ [] → p.data <+: v.data →
      rid ∈ (st.learn rid v).startswith p) ∧
    (∀ s : String, s.data ≠ [] → s.data <:+ v.data →
      rid ∈ (st.learn rid v).endswith s) ∧
    (∀ m : String, m.data ≠ [] → m.data <:+: v.data →
      rid ∈ (st.learn rid v).contains m) := by
  refine ⟨?_, ?_, ?_, ?_⟩
  · unfold StringIndex.is_ substringSearch
    rw [learn_case_sensitive]
    exact learn_mem_values st rid v
  · intro p h1 h2
    unfold StringIndex.startswith substringSearch
    rw [learn_case_sensitive]
    exact learn_mem_beginnings st rid v (procV_ne_nil _ h1)
      (procV_pre st.case_sensitive h2)
  · intro s h1 h2
    unfold StringIndex.endswith substringSearch
    rw [learn_case_sensitive]
    exact learn_mem_endings st rid v (procV_ne_nil _ h1)
      (procV_suffix st.case_sensitive h2)
  · intro m h1 h2
    unfold StringIndex.contains substringSearch
    rw [learn_case_sensitive]
    exact learn_mem_middles st rid v (procV_ne_nil _ h1)
      (procV_inf st.case_sensitive h2)

/-- Witness for C6 at a concrete input: a case-insensitive index learning
"Ab" for rid 1, queried with the prefix "A", suffix "b" and substring "b". -/
theorem C6_string_learn_substring_completeness_witness :
    1 ∈ ((StringIndex.reset false).learn 1 "Ab").is_ "Ab" ∧
    1 ∈ ((StringIndex.reset false).learn 1 "Ab").startswith "A" ∧
    1 ∈ ((StringIndex.reset false).learn 1 "Ab").endswith "b" ∧
    1 ∈ ((StringIndex.reset false).learn 1 "Ab").contains "b" := by
  have main := C6_string_learn_substring_completeness (StringIndex.reset false) 1 "Ab"
  exact ⟨main.1,
    main.2.1 "A" (by decide) (by decide),
    main.2.2.1 "b" (by decide) (by decide),
    main.2.2.2 "b" (by decide) (by decide)⟩

/-- C9: learning the same rid a second time with a different value does not
remove the first value's associations: after `learn(rid, v1)` then
`learn(rid, v2)` with `v1 ≠ v2`, `is_(v1)` still contains the rid, while
`rids[rid]` has been overwritten to hold only v2's substrings (so the
forget that the catalog's re-index-on-mtime-change path would need cannot
see the v1 entries any more). -/
theorem C9_string_relearn_leaves_stale_entries (st : StringIndex) (rid : Nat)
    (v1 v2 : String) (hne : v1 ≠ v2) :
    rid ∈ ((st.learn rid v1).learn rid v2).is_ v1 ∧
    dlookup ((st.learn rid v1).learn rid v2).rids rid =
      some (subsOf (procV st.case_sensitive v2)) := by
  constructor
  · unfold StringIndex.is_ substringSearch
    rw [learn_case_sensitive, learn_case_sensitive]
    rw [learn_values_eq, learn_case_sensitive]
    exact lookupD_addTo_mono _ _ _ _ _ (learn_mem_values st rid v1)
  · exact learn_rids_self (st.learn rid v1) rid v2

/-- Witness for C9 at a concrete input: rid 1 learns "a" then "b" on a
case-sensitive index. -/
theorem C9_string_relearn_leaves_stale_entries_witness :
    1 ∈ (((StringIndex.reset true).learn 1 "a").learn 1 "b").is_ "a" ∧
    dlookup (((StringIndex.reset true).learn 1 "a").learn 1 "b").rids 1 =
      some (subsOf (procV true "b")) :=
  C9_string_relearn_leaves_stale_entries (StringIndex.reset true) 1 "a" "b" (by decide)

/-- C2 (code bug): `learn(rid, v)` followed by `forget(rid)` does NOT
restore a String index (and hence not a Path index, whose `forget`
delegates to `String.forget` first).  `String.forget` dereferences the
undefined attribute `self.substrings`:

* for a learned one-character value the first `values[s].remove(rid)`
  succeeds and the next line raises `AttributeError`;
* for a longer value the first (smallest) stored substring is not a key of
  `values`, so `values[s]` raises `KeyError` at once;
* for the empty-string value the substring loop never runs and forget
  "succeeds" — but leaves the `values['']` entry behind, so the state
  still differs from the state before `learn`.

Only the Enumeration index satisfies the claim (see
`enumeration_learn_forget_roundtrip` below). -/
theorem C2_string_forget_is_broken :
    (((StringIndex.reset false).learn 1 "a").forget 1).2 = some Err.attributeError ∧
    (((StringIndex.reset false).learn 1 "ab").forget 1).2 = some Err.keyError ∧
    (((StringIndex.reset false).learn 1 "").forget 1).2 = none ∧
    (((StringIndex.reset false).learn 1 "").forget 1).1 ≠ StringIndex.reset false := by
  refine ⟨by decide, by decide, by decide, by decide⟩

/-! ### The `Enumeration` index (`indices.py`, class `Enumeration`) -/

/-- State of an `indices.Enumeration` instance.  `default = none` stands
for the `ENUMERATION_NO_DEFAULT` sentinel. -/
structure Enumeration where
  allowed : List String
  default : Option String
  values : List (Nat × String)
  rids : List (String × RSet)
  deriving DecidableEq

/-- `Enumeration(*allowed, default=...)` followed by `reset()` (the
constructor validation of the default is assumed to have passed). -/
def Enumeration.mk0 (allowed : List String) (default : Option String) : Enumeration :=
  ⟨allowed, default, [], []⟩

/-- `Enumeration.learn(self, rid, value)`.  The source reads

    if value is None:
        if self.default is MARKER:
            raise bad_value
        value = self.default

but `MARKER` is not defined anywhere in `indices.py` (it lives in
`catalog.py` and is not imported; the sentinel actually defined next to
the class is `ENUMERATION_NO_DEFAULT`).  Evaluating the undefined name
raises `NameError` before the default can be consulted, so every
missing-value learn fails regardless of any configured default.  A value
outside the permitted list raises the intended `ValueError` (BadValue). -/
def Enumeration.learn (e : Enumeration) (rid : Nat) (value : Option String) :
    Except Err Enumeration :=
  match value with
  | none => .error .nameError
  | some v =>
    if v ∈ e.allowed then
      .ok { e with rids := addTo e.rids v rid, values := dset e.values rid v }
    else .error .valueError

/-- `Enumeration.forget(self, rid, value)`: the `value` parameter of the
source is ignored (the stored value is looked up by rid), so it is dropped
here.  `values[rid]` / `rids[value].remove(rid)` raise `KeyError` for an
unknown rid. -/
def Enumeration.forget (e : Enumeration) (rid : Nat) : Except Err Enumeration :=
  match dlookup e.values rid with
  | none => .error .keyError
  | some v =>
    match dlookup e.rids v with
    | none => .error .keyError
    | some s =>
      if rid ∈ s then
        .ok { e with
              rids := if s.erase rid = ∅ then ddel e.rids v else dset e.rids v (s.erase rid),
              values := ddel e.values rid }
      else .error .keyError

/-- `Enumeration.is_(self, value)` → `self.rids.get(value, IISet())`. -/
def Enumeration.is_ (e : Enumeration) (v : String) : RSet := lookupD e.rids v

/-- C7 (code bug): `learn(rid, None)` on an Enumeration raises `NameError`
(the undefined name `MARKER`) even when a default is configured, instead of
storing the default; and instead of `BadValue` when no default is
configured.  Only the third part of the claim holds: a value outside the
permitted list is rejected with BadValue, and an allowed value is stored
so that `is_` finds it. -/
theorem C7_enumeration_default_is_broken :
    (Enumeration.mk0 ["a", "b"] (some "a")).learn 1 none = .error Err.nameError ∧
    (Enumeration.mk0 ["a", "b"] none).learn 1 none = .error Err.nameError ∧
    (Enumeration.mk0 ["a", "b"] (some "a")).learn 1 (some "c") = .error Err.valueError ∧
    ∃ e1, (Enumeration.mk0 ["a", "b"] (some "a")).learn 1 (some "a") = .ok e1 ∧
      1 ∈ e1.is_ "a" := by
  refine ⟨rfl, rfl, rfl, ⟨_, rfl, by decide⟩⟩

theorem ddel_append {K V : Type} [DecidableEq K] (a b : List (K × V)) (k : K) :
    ddel (a ++ b) k = ddel a k ++ ddel b k := by
  induction a with
  | nil => simp [ddel]
  | cons e rest ih =>
    by_cases he : e.1 = k
    · simp [ddel, he, ih]
    · simp [ddel, he, ih]

theorem ddel_of_absent {K V : Type} [DecidableEq K] {m : List (K × V)} {k : K}
    (h : dlookup m k = none) : ddel m k = m := by
  induction m with
  | nil => rfl
  | cons e rest ih =>
    by_cases he : e.1 = k
    · simp [dlookup, he] at h
    · simp [dlookup, he] at h
      simp [ddel, he, ih h]

theorem ddel_dset_absent {K V : Type} [DecidableEq K] {m : List (K × V)} {k : K}
    (v : V) (h : dlookup m k = none) : ddel (dset m k v) k = m := by
  rw [dset_of_absent _ _ _ h, ddel_append, ddel_of_absent h]
  simp [ddel]

theorem dset_dset {K V : Type} [DecidableEq K] (m : List (K × V)) (k : K) (v1 v2 : V) :
    dset (dset m k v1) k v2 = dset m k v2 := by
  induction m with
  | nil => simp [dset]
  | cons e rest ih =>
    by_cases he : e.1 = k
    · simp [dset, he]
    · simp [dset, he, ih]

theorem dset_self_of_lookup {K V : Type} [DecidableEq K] {m : List (K × V)} {k : K}
    {v : V} (h : dlookup m k = some v) : dset m k v = m := by
  induction m with
  | nil => simp [dlookup] at h
  | cons e rest ih =>
    obtain ⟨a, b⟩ := e
    by_cases he : a = k
    · subst he
      simp [dlookup] at h
      simp [dset, h]
    · simp [dlookup, he] at h
      simp [dset, he, ih h]

/-- Supporting fact (the Enumeration part of the spec's learn/forget
roundtrip law, §8): on an Enumeration index, learning a fresh rid with an
allowed value and then forgetting it restores the exact prior state (the
side conditions say the rid is not currently learned and the index state is
one the class itself can produce: no stored-but-empty rid-set). -/
theorem enumeration_learn_forget_roundtrip (e : Enumeration) (rid : Nat) (v : String)
    (hv : v ∈ e.allowed) (hfresh : dlookup e.values rid = none)
    (hclean : ∀ s, dlookup e.rids v = some s → rid ∉ s ∧ s ≠ ∅) :
    ((e.learn rid (some v)).bind (fun e1 => e1.forget rid)) = .ok e := by
  have hlearn : e.learn rid (some v) =
      .ok { e with rids := addTo e.rids v rid, values := dset e.values rid v } := by
    simp [Enumeration.learn, hv]
  rw [hlearn]
  show Enumeration.forget _ rid = Except.ok e
  cases hr : dlookup e.rids v with
  | none =>
    have haddTo : addTo e.rids v rid = dset e.rids v {rid} := by
      unfold addTo; rw [hr]
    have h1 : dlookup (dset e.values rid v) rid = some v := dlookup_dset_self _ _ _
    have h2 : dlookup (dset e.rids v ({rid} : RSet)) v = some {rid} :=
      dlookup_dset_self _ _ _
    unfold Enumeration.forget
    rw [haddTo]
    simp only [h1, h2]
    rw [if_pos (Finset.mem_singleton_self rid), Finset.erase_singleton, if_pos rfl,
      ddel_dset_absent _ hr, ddel_dset_absent _ hfresh]
  | some s =>
    obtain ⟨hs, hsne⟩ := hclean s hr
    have haddTo : addTo e.rids v rid = dset e.rids v (insert rid s) := by
      unfold addTo; rw [hr]
    have h1 : dlookup (dset e.values rid v) rid = some v := dlookup_dset_self _ _ _
    have h2 : dlookup (dset e.rids v (insert rid s)) v = some (insert rid s) :=
      dlookup_dset_self _ _ _
    unfold Enumeration.forget
    rw [haddTo]
    simp only [h1, h2]
    rw [if_pos (Finset.mem_insert_self rid s), Finset.erase_insert hs, if_neg hsne,
      dset_dset, dset_self_of_lookup hr, ddel_dset_absent _ hfresh]

/-! ### `Catalog._generate_rid` (`catalog.py`)

The `while 1:` loop either returns the current `self._v_nextrid` (and leaves
the incremented value for the next call), or, on collision, clears
`_v_nextrid` and draws a fresh random starting point.  The randomness is
embedded as a list of draws (the successive results of
`random.randint(0, 2**31)` — note that Python's `randint` is INCLUSIVE of
both bounds, so a draw may be `2**31` itself); the list doubles as
termination fuel, `none` meaning the draws ran out. -/

def genRidAux (rids : Finset Nat) : List Nat → Option (Nat × Nat)
  | [] => none
  | d :: ds => if d ∉ rids then some (d, d + 1) else genRidAux rids ds

/-- `Catalog._generate_rid`, returning the allocated rid together with the
`_v_nextrid` value left behind for the next call. -/
def generateRid (draws : List Nat) (nextrid : Option Nat) (rids : Finset Nat) :
    Option (Nat × Nat) :=
  match nextrid with
  | some n => if n ∉ rids then some (n, n + 1) else genRidAux rids draws
  | none => genRidAux rids draws

/-- Supporting fact: when `_generate_rid` returns, the returned rid is not
in the catalog's rid-set (the part of the allocator contract that does
hold; it backs the freshness side condition of the catalog invariant). -/
theorem generateRid_fresh (draws : List Nat) (nextrid : Option Nat)
    (rids : Finset Nat) (r n' : Nat)
    (h : generateRid draws nextrid rids = some (r, n')) : r ∉ rids := by
  have aux : ∀ (l : List Nat), genRidAux rids l = some (r, n') → r ∉ rids := by
    intro l
    induction l with
    | nil => intro h'; simp [genRidAux] at h'
    | cons d ds ih =>
      intro h'
      by_cases hd : d ∉ rids
      · simp [genRidAux, hd] at h'
        exact h'.1 ▸ hd
      · simp [genRidAux, hd] at h'
        exact ih h'
  match nextrid with
  | some n =>
    by_cases hn : n ∉ rids
    · simp [generateRid, hn] at h
      exact h.1 ▸ hn
    · simp [generateRid, hn] at h
      exact aux draws h
  | none =>
    simp [generateRid] at h
    exact aux draws h

/-- C8 (code bug): `_generate_rid` is claimed to return a rid in
`[0, 2³¹)`, but the starting point is drawn with `random.randint(0, 2**31)`
whose upper bound is inclusive, so the draw — and hence the returned
rid — can be `2**31` itself, which does not fit the signed-32-bit
`IITreeSet`/`IISet` rid storage the catalog and all indices use.  Here the
allocator, handed the legal draw `2**31` on an empty catalog, returns
`2**31`, which is not `< 2**31`.  (The freshness part of the claim does
hold: see `generateRid_fresh`.) -/
theorem C8_generate_rid_range_violated :
    generateRid [2 ^ 31] none ∅ = some (2 ^ 31, 2 ^ 31 + 1) ∧
    ¬ ((2 : Nat) ^ 31 < 2 ^ 31) := by
  exact ⟨by simp [generateRid, genRidAux], by omega⟩

/-! ### The `Collection` query composer (`collection.py`)

`Collection.refresh` evaluates `self.constraints`, a list of groupings;
each grouping is a list of terms `(operation, query, (call, arg))`.  The
builders guarantee the shape: the first term of every grouping has
`operation is None` (seed), with `call is None` meaning "the whole rid-set"
(an `OR()` with no constraint), and later terms carry
`operation ∈ {intersection, difference}` with a resolved call.  A term is
embedded by its combinator together with the rid-set its resolved call
returns. -/

inductive CTerm where
  | orAll
  | orT (A : RSet)
  | andT (A : RSet)
  | notT (A : RSet)

/-- One step of the inner fold of `Collection.refresh`:

    if (operation is None) and (call is None):       result = all
    elif (operation is None) and (call is not None): result = call(arg)
    else:                                            result = operation(result, call(arg))
-/
def applyTerm (all : RSet) (acc : RSet) : CTerm → RSet
  | .orAll => all
  | .orT A => A
  | .andT A => acc ∩ A
  | .notT A => acc \ A

/-- The per-grouping fold of `Collection.refresh` (the Python loop variable
`result`; the seed term always overwrites the accumulator, so the initial
`∅` is never read on builder-generated constraints). -/
def evalGrouping (all : RSet) (g : List CTerm) : RSet :=
  g.foldl (applyTerm all) ∅

/-- `Collection.refresh`: evaluate every grouping and union the results
(`multiunion`). -/
def refresh (all : RSet) (constraints : List (List CTerm)) : RSet :=
  (constraints.map (evalGrouping all)).foldl (fun a b => a ∪ b) ∅

/-- `Collection.__init__`: one grouping holding the seed term
(`None` constraint → universe seed). -/
def Collection.init (c : Option RSet) : List (List CTerm) :=
  match c with
  | none => [[.orAll]]
  | some A => [[.orT A]]

/-- `self.constraints[-1].append(t)`. -/
def appendToLast (cs : List (List CTerm)) (t : CTerm) : List (List CTerm) :=
  match cs with
  | [] => []
  | [g] => [g ++ [t]]
  | g :: rest => g :: appendToLast rest t

/-- `Collection.AND`: append an intersection term to the last grouping. -/
def Collection.AND (cs : List (List CTerm)) (A : RSet) : List (List CTerm) :=
  appendToLast cs (.andT A)

/-- `Collection.NOT`: append a difference term to the last grouping. -/
def Collection.NOT (cs : List (List CTerm)) (A : RSet) : List (List CTerm) :=
  appendToLast cs (.notT A)

/-- `Collection.OR`: start a new grouping with the given seed term
(no constraint → universe seed). -/
def Collection.OR (cs : List (List CTerm)) (c : Option RSet) : List (List CTerm) :=
  cs ++ [match c with | none => [CTerm.orAll] | some A => [CTerm.orT A]]

/-- C3: a Collection built as `(A AND B) OR (C NOT D)` refreshes to
`(A ∩ B) ∪ (C \ D)`: within each grouping the terms fold left-to-right
applying intersection for AND and set-difference for NOT to the
accumulated set, the universe rid-set seeds a grouping with no constraint
term, and the grouping results are unioned. -/
theorem C3_collection_dnf (all A B C D : RSet) :
    refresh all (Collection.NOT (Collection.OR (Collection.AND
        (Collection.init (some A)) B) (some C)) D) = (A ∩ B) ∪ (C \ D) ∧
    refresh all (Collection.init none) = all ∧
    (∀ g : List CTerm, evalGrouping all (CTerm.orT A :: g) =
      g.foldl (applyTerm all) A) := by
  refine ⟨?_, ?_, ?_⟩
  · show refresh all [[CTerm.orT A, CTerm.andT B], [CTerm.orT C, CTerm.notT D]] = _
    simp [refresh, evalGrouping, applyTerm]
  · simp [refresh, Collection.init, evalGrouping, applyTerm]
  · intro g
    simp [evalGrouping, applyTerm]

/-! ### The `Catalog` (`catalog.py`)

Only the three primary maps are carried: `ridtimes : {path: (rid, modtime)}`,
`resources : {rid: Resource}` (a Resource is modelled by the path it was
built from, which is all `Catalog` itself reads), and `rids`.  The installed
indices are not part of the claimed invariant; their `learn` calls happen
before the three mutations in `_add_update`, so a raising `learn` leaves the
three maps untouched (state unchanged — trivially invariant-preserving),
and the `forget` calls in the unindex pass do not touch these maps. -/

structure Catalog where
  ridtimes : List (String × Nat × Nat)
  resources : List (Nat × String)
  rids : Finset Nat
  deriving DecidableEq

/-- The list of rids stored in `ridtimes` (in path iteration order). -/
def ridList (c : Catalog) : List Nat := c.ridtimes.map (fun e => e.2.1)

/-- `Catalog._add_update(self, path)` on the success path.  `freshRid`
stands for the `self._generate_rid()` result (see `generateRid`;
`generateRid_fresh` shows it is never in `self.rids`), `statMtime` for
`os.stat(path)[stat.ST_MTIME]`.  A new path allocates a rid and records
everything; a known path with changed mtime rebuilds the record under the
same rid; an unchanged mtime returns without mutating. -/
def Catalog.addUpdate (c : Catalog) (statMtime : String → Nat) (freshRid : Nat)
    (path : String) : Catalog :=
  match dlookup c.ridtimes path with
  | none =>
    let rid := freshRid
    let modtime := statMtime path
    { c with ridtimes := dset c.ridtimes path (rid, modtime),
             resources := dset c.resources rid path,
             rids := insert rid c.rids }
  | some (rid, oldtime) =>
    let modtime := statMtime path
    if modtime ≠ oldtime then
      { c with ridtimes := dset c.ridtimes path (rid, modtime),
               resources := dset c.resources rid path,
               rids := insert rid c.rids }
    else c

/-- The unindex pass of `Catalog.crawl_once`: walk `ridtimes`, and for
every path that no longer exists delete `resources[rid]` and remove the
rid from `rids` (collecting the path in `to_delete`); afterwards delete
the collected paths from `ridtimes`.  (`index.forget(rid)` calls omitted:
they do not touch these maps.  The embedding's `ddel`/`erase` are silent
where Python `del`/`remove` would raise on an absent key; on the reachable
states the theorems quantify over, the keys are present.) -/
def Catalog.unindexPass (c : Catalog) (exists_ : String → Bool) : Catalog :=
  let dead := c.ridtimes.filter (fun e => ! exists_ e.1)
  let c1 := dead.foldl (fun acc e =>
      { acc with resources := ddel acc.resources e.2.1,
                 rids := acc.rids.erase e.2.1 }) c
  { c1 with ridtimes := dead.foldl (fun m e => ddel m e.1) c1.ridtimes }

/-- The catalog states produced by `reset()` and the two mutation steps of
the crawler.  The freshness side condition of the `addUpdate` step is what
`_generate_rid` guarantees (`generateRid_fresh`). -/
inductive Catalog.Reachable : Catalog → Prop where
  | reset : Catalog.Reachable ⟨[], [], ∅⟩
  | addUpdate (c : Catalog) (stat : String → Nat) (fresh : Nat) (path : String) :
      Catalog.Reachable c → fresh ∉ c.rids →
      Catalog.Reachable (c.addUpdate stat fresh path)
  | unindex (c : Catalog) (ex : String → Bool) :
      Catalog.Reachable c → Catalog.Reachable (c.unindexPass ex)

/-- The invariant claimed in the spec (§3): `|resources| = |rids| =
|ridtimes|`, and every `(rid, modtime)` stored in `ridtimes` has its rid in
the `rids` set and as a key of `resources`. -/
def ClaimInv (c : Catalog) : Prop :=
  c.resources.length = c.rids.card ∧
  c.ridtimes.length = c.rids.card ∧
  ∀ p rid t, (p, (rid, t)) ∈ c.ridtimes →
    rid ∈ c.rids ∧ rid ∈ dkeys c.resources

/-- The representation invariant the crawler actually maintains (it implies
`ClaimInv`): unique paths, unique resource keys, pairwise-distinct stored
rids, and `rids` equal to both the stored-rid set and the resource key
set. -/
def Rep (c : Catalog) : Prop :=
  (dkeys c.ridtimes).Nodup ∧
  (dkeys c.resources).Nodup ∧
  (ridList c).Nodup ∧
  c.rids = (ridList c).toFinset ∧
  (dkeys c.resources).toFinset = c.rids

theorem rep_claimInv {c : Catalog} (h : Rep c) : ClaimInv c := by
  obtain ⟨h1, h2, h3, h4, h5⟩ := h
  refine ⟨?_, ?_, ?_⟩
  · have : c.resources.length = (dkeys c.resources).length := by
      simp [dkeys]
    rw [this, ← List.toFinset_card_of_nodup h2, h5]
  · have : c.ridtimes.length = (ridList c).length := by
      simp [ridList]
    rw [this, ← List.toFinset_card_of_nodup h3, h4]
  · intro p rid t hmem
    have hrid : rid ∈ ridList c := by
      simp only [ridList, List.mem_map]
      exact ⟨(p, rid, t), hmem, rfl⟩
    constructor
    · rw [h4]
      exact List.mem_toFinset.mpr hrid
    · have : rid ∈ (dkeys c.resources).toFinset := by
        rw [h5, h4]; exact List.mem_toFinset.mpr hrid
      exact List.mem_toFinset.mp this

theorem dlookup_none_iff_not_mem_dkeys {K V : Type} [DecidableEq K]
    (m : List (K × V)) (k : K) : dlookup m k = none ↔ k ∉ dkeys m := by
  rw [← dlookup_isSome_iff_mem_dkeys]
  cases dlookup m k <;> simp

theorem map_val_dset {K V β : Type} [DecidableEq K] (f : V → β)
    (m : List (K × V)) (k : K) {v v' : V} (h : dlookup m k = some v)
    (hf : f v' = f v) :
    (dset m k v').map (fun e => f e.2) = m.map (fun e => f e.2) := by
  induction m with
  | nil => simp [dlookup] at h
  | cons e rest ih =>
    obtain ⟨a, b⟩ := e
    by_cases he : a = k
    · subst he
      simp [dlookup] at h
      subst h
      simp [dset, hf]
    · simp [dlookup, he] at h
      simp [dset, he, ih h]

theorem rep_addUpdate {c : Catalog} (h : Rep c) (stat : String → Nat)
    (fresh : Nat) (path : String) (hfresh : fresh ∉ c.rids) :
    Rep (c.addUpdate stat fresh path) := by
  obtain ⟨h1, h2, h3, h4, h5⟩ := h
  unfold Catalog.addUpdate
  cases hrt : dlookup c.ridtimes path with
  | none =>
    have hpath : path ∉ dkeys c.ridtimes :=
      (dlookup_none_iff_not_mem_dkeys _ _).mp hrt
    have hfreshL : fresh ∉ ridList c := fun hm =>
      hfresh (h4 ▸ List.mem_toFinset.mpr hm)
    have hfreshR : fresh ∉ dkeys c.resources := fun hm =>
      hfresh (h5 ▸ List.mem_toFinset.mpr hm)
    have hres : dlookup c.resources fresh = none :=
      (dlookup_none_iff_not_mem_dkeys _ _).mpr hfreshR
    refine ⟨?_, ?_, ?_, ?_, ?_⟩
    · show (dkeys (dset c.ridtimes path (fresh, stat path))).Nodup
      rw [dset_of_absent _ _ _ hrt]
      simp only [dkeys, List.map_append, List.map_cons, List.map_nil]
      rw [List.nodup_append]
      refine ⟨h1, by simp, ?_⟩
      intro a ha hb
      simp at hb
      subst hb
      exact hpath (by simpa [dkeys] using ha)
    · show (dkeys (dset c.resources fresh path)).Nodup
      rw [dset_of_absent _ _ _ hres]
      simp only [dkeys, List.map_append, List.map_cons, List.map_nil]
      rw [List.nodup_append]
      refine ⟨h2, by simp, ?_⟩
      intro a ha hb
      simp at hb
      subst hb
      exact hfreshR (by simpa [dkeys] using ha)
    · show ((dset c.ridtimes path (fresh, stat path)).map (fun e => e.2.1)).Nodup
      rw [dset_of_absent _ _ _ hrt]
      simp only [List.map_append, List.map_cons, List.map_nil]
      rw [List.nodup_append]
      refine ⟨h3, by simp, ?_⟩
      intro a ha hb
      simp at hb
      subst hb
      exact hfreshL (by simpa [ridList] using ha)
    · show insert fresh c.rids =
        ((dset c.ridtimes path (fresh, stat path)).map (fun e => e.2.1)).toFinset
      rw [dset_of_absent _ _ _ hrt]
      ext a
      simp only [Finset.mem_insert, List.mem_toFinset, List.map_append,
        List.map_cons, List.map_nil, List.mem_append, List.mem_cons,
        List.not_mem_nil, or_false]
      rw [h4]
      simp only [List.mem_toFinset, ridList]
      tauto
    · show (dkeys (dset c.resources fresh path)).toFinset = insert fresh c.rids
      rw [dset_of_absent _ _ _ hres]
      ext a
      simp only [Finset.mem_insert, List.mem_toFinset, dkeys, List.map_append,
        List.map_cons, List.map_nil, List.mem_append, List.mem_cons,
        List.not_mem_nil, or_false]
      have h5' : a ∈ c.resources.map Prod.fst ↔ a ∈ c.rids := by
        rw [← h5]
        simp [dkeys]
      rw [h5']
      tauto
  | some rt =>
    obtain ⟨rid, oldt⟩ := rt
    have hmem : (path, rid, oldt) ∈ c.ridtimes := mem_of_dlookup_eq_some hrt
    have hridL : rid ∈ ridList c := by
      simp only [ridList, List.mem_map]
      exact ⟨(path, rid, oldt), hmem, rfl⟩
    have hridS : rid ∈ c.rids := h4 ▸ List.mem_toFinset.mpr hridL
    have hridK : rid ∈ dkeys c.resources := by
      have : rid ∈ (dkeys c.resources).toFinset := h5.symm ▸ hridS
      exact List.mem_toFinset.mp this
    have hresS : (dlookup c.resources rid).isSome :=
      (dlookup_isSome_iff_mem_dkeys _ _).mpr hridK
    have hrtS : (dlookup c.ridtimes path).isSome := by rw [hrt]; rfl
    have hrl : (dset c.ridtimes path (rid, stat path)).map (fun e => e.2.1) =
        c.ridtimes.map (fun e => e.2.1) :=
      @map_val_dset String (Nat × Nat) Nat _ (fun v => v.1) c.ridtimes path
        (rid, oldt) (rid, stat path) hrt rfl
    have hins : insert rid c.rids = c.rids := Finset.insert_eq_self.mpr hridS
    show Rep (if stat path ≠ oldt then
        { c with ridtimes := dset c.ridtimes path (rid, stat path),
                 resources := dset c.resources rid path,
                 rids := insert rid c.rids } else c)
    by_cases hmt : stat path ≠ oldt
    · rw [if_pos hmt]
      refine ⟨?_, ?_, ?_, ?_, ?_⟩
      · show (dkeys (dset c.ridtimes path (rid, stat path))).Nodup
        rw [dkeys_dset_of_present _ _ _ hrtS]
        exact h1
      · show (dkeys (dset c.resources rid path)).Nodup
        rw [dkeys_dset_of_present _ _ _ hresS]
        exact h2
      · show ((dset c.ridtimes path (rid, stat path)).map (fun e => e.2.1)).Nodup
        rw [hrl]
        exact h3
      · show insert rid c.rids =
          ((dset c.ridtimes path (rid, stat path)).map (fun e => e.2.1)).toFinset
        rw [hrl, hins]
        exact h4
      · show (dkeys (dset c.resources rid path)).toFinset = insert rid c.rids
        rw [dkeys_dset_of_present _ _ _ hresS, hins]
        exact h5
    · rw [if_neg hmt]
      exact ⟨h1, h2, h3, h4, h5⟩

theorem unindex_fold_components (dead : List (String × Nat × Nat)) :
    ∀ c : Catalog,
      (dead.foldl (fun acc e =>
        { acc with resources := ddel acc.resources e.2.1,
                   rids := acc.rids.erase e.2.1 }) c) =
      { c with resources := dead.foldl (fun m e => ddel m e.2.1) c.resources,
               rids := dead.foldl (fun s e => s.erase e.2.1) c.rids } := by
  induction dead with
  | nil => intro c; rfl
  | cons d ds ih =>
    intro c
    simp only [List.foldl]
    rw [ih]

theorem mem_ddel {K V : Type} [DecidableEq K] (m : List (K × V)) (k : K)
    (x : K × V) : x ∈ ddel m k ↔ x ∈ m ∧ x.1 ≠ k := by
  rw [ddel_eq_filter]
  simp

theorem mem_foldl_ddel {K V β : Type} [DecidableEq K] (f : β → K) (l : List β) :
    ∀ (m : List (K × V)) (x : K × V),
      x ∈ l.foldl (fun m e => ddel m (f e)) m ↔ x ∈ m ∧ x.1 ∉ l.map f := by
  induction l with
  | nil => intro m x; simp
  | cons d ds ih =>
    intro m x
    simp only [List.foldl]
    rw [ih]
    rw [mem_ddel]
    simp only [List.map_cons, List.mem_cons]
    tauto

theorem dlookup_foldl_ddel {K V β : Type} [DecidableEq K] (f : β → K) (l : List β) :
    ∀ (m : List (K × V)) (k : K),
      dlookup (l.foldl (fun m e => ddel m (f e)) m) k =
        if k ∈ l.map f then none else dlookup m k := by
  induction l with
  | nil => intro m k; simp
  | cons d ds ih =>
    intro m k
    simp only [List.foldl]
    rw [ih, dlookup_ddel]
    by_cases h1 : k ∈ ds.map f
    · simp [h1]
    · by_cases h2 : k = f d
      · simp [h1, h2]
      · simp [h1, h2]

theorem foldl_ddel_sublist {K V β : Type} [DecidableEq K] (f : β → K) (l : List β) :
    ∀ m : List (K × V), (l.foldl (fun m e => ddel m (f e)) m).Sublist m := by
  induction l with
  | nil => intro m; exact List.Sublist.refl m
  | cons d ds ih =>
    intro m
    simp only [List.foldl]
    exact (ih (ddel m (f d))).trans (by rw [ddel_eq_filter]; exact List.filter_sublist m)

theorem foldl_erase_sdiff {β : Type} (f : β → Nat) (l : List β) :
    ∀ s : Finset Nat, l.foldl (fun s e => s.erase (f e)) s = s \ (l.map f).toFinset := by
  induction l with
  | nil => intro s; simp
  | cons d ds ih =>
    intro s
    simp only [List.foldl]
    rw [ih]
    ext a
    simp only [Finset.mem_sdiff, Finset.mem_erase, List.mem_toFinset,
      List.map_cons, List.mem_cons]
    tauto

theorem rep_unindexPass {c : Catalog} (h : Rep c) (ex : String → Bool) :
    Rep (c.unindexPass ex) := by
  obtain ⟨h1, h2, h3, h4, h5⟩ := h
  unfold Catalog.unindexPass
  simp only
  rw [unindex_fold_components]
  simp only
  set dead := c.ridtimes.filter (fun e => ! ex e.1) with hdead
  have hdeadsub : ∀ d, d ∈ dead → d ∈ c.ridtimes := by
    intro d hd
    rw [hdead] at hd
    exact (List.mem_filter.mp hd).1
  have h1' : (c.ridtimes.map Prod.fst).Nodup := h1
  have h3' : (c.ridtimes.map (fun e => e.2.1)).Nodup := h3
  have hinjk := List.inj_on_of_nodup_map h1'
  have hinjr := List.inj_on_of_nodup_map h3'
  have hpath_iff : ∀ x, x ∈ c.ridtimes →
      (x.1 ∈ dead.map Prod.fst ↔ x.2.1 ∈ dead.map (fun e => e.2.1)) := by
    intro x hx
    constructor
    · intro hp
      obtain ⟨d, hd, hdx⟩ := List.mem_map.mp hp
      have : d = x := hinjk (hdeadsub d hd) hx hdx
      subst this
      exact List.mem_map.mpr ⟨d, hd, rfl⟩
    · intro hr
      obtain ⟨d, hd, hdx⟩ := List.mem_map.mp hr
      have : d = x := hinjr (hdeadsub d hd) hx hdx
      subst this
      exact List.mem_map.mpr ⟨d, hd, rfl⟩
  refine ⟨?_, ?_, ?_, ?_, ?_⟩
  · exact h1.sublist (List.Sublist.map _ (foldl_ddel_sublist _ dead c.ridtimes))
  · exact h2.sublist (List.Sublist.map _ (foldl_ddel_sublist _ dead c.resources))
  · exact h3.sublist (List.Sublist.map _ (foldl_ddel_sublist _ dead c.ridtimes))
  · rw [foldl_erase_sdiff, h4]
    ext r
    simp only [Finset.mem_sdiff, List.mem_toFinset, ridList, List.mem_map]
    constructor
    · rintro ⟨⟨x, hx, hxr⟩, hr⟩
      refine ⟨x, ?_, hxr⟩
      rw [mem_foldl_ddel]
      refine ⟨hx, ?_⟩
      intro hp
      exact hr (hxr ▸ List.mem_map.mp ((hpath_iff x hx).mp hp))
    · rintro ⟨x, hx, hxr⟩
      rw [mem_foldl_ddel] at hx
      obtain ⟨hx, hp⟩ := hx
      refine ⟨⟨x, hx, hxr⟩, ?_⟩
      intro hr
      exact hp ((hpath_iff x hx).mpr (hxr.symm ▸ List.mem_map.mpr hr))
  · rw [foldl_erase_sdiff]
    ext a
    simp only [Finset.mem_sdiff, List.mem_toFinset]
    rw [← dlookup_isSome_iff_mem_dkeys, dlookup_foldl_ddel]
    by_cases hd : a ∈ dead.map (fun e => e.2.1)
    · rw [if_pos hd]
      simp [hd]
    · rw [if_neg hd]
      rw [dlookup_isSome_iff_mem_dkeys]
      have : a ∈ dkeys c.resources ↔ a ∈ c.rids := by
        rw [← h5]
        simp
      rw [this]
      simp [hd]

theorem rep_of_reachable {c : Catalog} (h : Catalog.Reachable c) : Rep c := by
  induction h with
  | reset =>
    exact ⟨by simp [dkeys], by simp [dkeys], by simp [ridList],
      by simp [ridList], by simp [dkeys]⟩
  | addUpdate c stat fresh path hr hf ih => exact rep_addUpdate ih stat fresh path hf
  | unindex c ex hr ih => exact rep_unindexPass ih ex

/-- C1: for every reachable catalog state, both catalog mutation steps —
the add/update handling of a single path in `_add_update` and the unindex
pass of `crawl_once` — preserve the invariant `|resources| = |rids| =
|ridtimes|`, and every `(rid, modtime)` stored in `ridtimes` has its rid
both in the `rids` set and as a key of `resources` (the invariant also
holds at the reachable state itself).  The freshness hypothesis on the
allocated rid is what `_generate_rid` guarantees (`generateRid_fresh`). -/
theorem C1_catalog_invariant_preserved (c : Catalog) (h : Catalog.Reachable c) :
    ClaimInv c ∧
    (∀ (stat : String → Nat) (fresh : Nat) (path : String), fresh ∉ c.rids →
      ClaimInv (c.addUpdate stat fresh path)) ∧
    (∀ ex : String → Bool, ClaimInv (c.unindexPass ex)) := by
  have hrep := rep_of_reachable h
  exact ⟨rep_claimInv hrep,
    fun stat fresh path hf => rep_claimInv (rep_addUpdate hrep stat fresh path hf),
    fun ex => rep_claimInv (rep_unindexPass hrep ex)⟩

/-- Witness for C1 at a concrete reachable state (the freshly reset
catalog), exercising both mutation steps. -/
theorem C1_catalog_invariant_preserved_witness :
    ClaimInv (Catalog.mk [] [] ∅) ∧
    ClaimInv ((Catalog.mk [] [] ∅).addUpdate (fun _ => 0) 5 "/a") ∧
    ClaimInv ((Catalog.mk [] [] ∅).unindexPass (fun _ => true)) := by
  have h := C1_catalog_invariant_preserved (Catalog.mk [] [] ∅) Catalog.Reachable.reset
  exact ⟨h.1, h.2.1 (fun _ => 0) 5 "/a" (by simp), h.2.2 (fun _ => true)⟩

/-! ### Path-string helpers (`os.sep = '/'`, Python `str.split`, `str.rstrip`) -/

/-- `str.split(sep)` on a character list: splitting on every character
satisfying `p` (Python keeps empty pieces; `''.split(sep) == ['']`). -/
def splitIf (p : Char → Bool) : List Char → List (List Char)
  | [] => [[]]
  | c :: rest =>
    if p c then [] :: splitIf p rest
    else
      match splitIf p rest with
      | [] => [[c]]
      | h :: t => (c :: h) :: t

/-- `s.split(sep)` for a single separator character. -/
def splitStr (sep : Char) (s : String) : List String :=
  (splitIf (fun c => c = sep) s.data).map (fun l => (⟨l⟩ : String))

/-- `s.rstrip(os.sep)`. -/
def rstripSep (s : String) : String :=
  ⟨(s.data.reverse.dropWhile (fun c => c = '/')).reverse⟩

/-- `s.startswith(os.sep)`. -/
def startsSep (s : String) : Bool := s.data.head? = some '/'

/-- `os.sep.join(parts)`. -/
def joinSep (l : List String) : String :=
  ⟨List.intercalate ['/'] (l.map (fun t => t.data))⟩

/-- Python `str.split()` whitespace characters. -/
def isWs (c : Char) : Bool := c = ' ' || c = '\t' || c = '\n' || c = '\r'

/-- Python `arg.split()` (split on whitespace runs, dropping empty pieces). -/
def splitWs (s : String) : List String :=
  ((splitIf isWs s.data).map (fun l => (⟨l⟩ : String))).filter (fun t => t ≠ "")

/-- `int(s)` for an all-digit string. -/
def digitsToNat (l : List Char) : Nat :=
  l.foldl (fun n c => n * 10 + (c.toNat - 48)) 0

theorem splitIf_ne_nil (p : Char → Bool) (l : List Char) : splitIf p l ≠ [] := by
  cases l with
  | nil => simp [splitIf]
  | cons c rest =>
    by_cases hc : p c
    · simp [splitIf, hc]
    · simp only [splitIf, hc, if_neg, Bool.false_eq_true, not_false_iff]
      cases splitIf p rest <;> simp

theorem splitIf_append_sep (p : Char → Bool) (c : Char) (hc : p c = true) :
    ∀ xs : List Char, splitIf p (xs ++ [c]) = splitIf p xs ++ [[]] := by
  intro xs
  induction xs with
  | nil => simp [splitIf, hc]
  | cons a rest ih =>
    by_cases ha : p a
    · simp [splitIf, ha, ih]
    · simp only [List.cons_append, splitIf, ha, Bool.false_eq_true, if_neg,
        not_false_iff, List.append_eq]
      rw [ih]
      cases h : splitIf p rest with
      | nil => exact absurd h (splitIf_ne_nil p rest)
      | cons hh tt => simp

theorem splitIf_append_all_sep (p : Char → Bool) :
    ∀ (t : List Char), (∀ c ∈ t, p c = true) →
      ∀ xs : List Char, splitIf p (xs ++ t) = splitIf p xs ++ t.map (fun _ => []) := by
  intro t
  induction t with
  | nil => intro _ xs; simp
  | cons c rest ih =>
    intro ht xs
    have hc : p c = true := ht c (List.mem_cons_self c rest)
    have : xs ++ c :: rest = (xs ++ [c]) ++ rest := by simp
    rw [this, ih (fun d hd => ht d (List.mem_cons_of_mem c hd)) (xs ++ [c]),
      splitIf_append_sep p c hc xs]
    simp

theorem rstripSep_decomp (v : String) :
    ∃ t : List Char, v.data = (rstripSep v).data ++ t ∧ ∀ c ∈ t, c = '/' := by
  refine ⟨(v.data.reverse.takeWhile (fun c => c = '/')).reverse, ?_, ?_⟩
  · unfold rstripSep
    conv_rhs => rw [← List.reverse_append, List.takeWhile_append_dropWhile,
      List.reverse_reverse]
  · intro c hc
    rw [List.mem_reverse] at hc
    have := List.mem_takeWhile_imp hc
    simpa using this

/-- `splitStr '/' (rstripSep v)` is a prefix of `splitStr '/' v` (stripping
trailing separators only drops trailing empty segments). -/
theorem splitStr_rstrip_prefix (v : String) :
    splitStr '/' (rstripSep v) <+: splitStr '/' v := by
  obtain ⟨t, hdec, ht⟩ := rstripSep_decomp v
  unfold splitStr
  rw [hdec, splitIf_append_all_sep (fun c => c = '/') t (by simpa using ht)]
  rw [List.map_append]
  exact ⟨_, rfl⟩

theorem getD_of_prefix {α : Type} {l1 l2 : List α} (h : l1 <+: l2) (d : α)
    (n : Nat) (hn : n < l1.length) : l2.getD n d = l1.getD n d := by
  obtain ⟨t, rfl⟩ := h
  induction l1 generalizing n with
  | nil => simp at hn
  | cons a rest ih =>
    cases n with
    | zero => simp [List.getD]
    | succ m =>
      simp only [List.length_cons] at hn
      simp only [List.cons_append, List.getD_cons_succ]
      exact ih m (by omega)

/-! ### The `Path` index (`indices.py`, class `Path`)

`Path` subclasses `String`.  Its `reset` REBINDS `self.rids` to the
`{rid: (level,part)s}` map, but `String.learn` — called first from
`Path.learn` — overwrites `self.rids[rid]` with the substring OOSet, and
the level/part loop then inserts its `(level, part)` tuples into that same
set; the shared `rids` field therefore holds `STok` values of both kinds. -/

structure Path extends StringIndex where
  root : String
  path2rid : List (String × Nat)
  rid2path : List (Nat × String)
  parts : List ((Nat × String) × RSet)
  levels : List (Nat × RSet)
  deriving DecidableEq

/-- `Path.__init__(root, case_sensitive)` followed by `reset()` (the
`isdir(root)` filesystem check and the platform-dependent case default are
outside the embedding; the flag is taken as given). -/
def Path.mk0 (root : String) (case_sensitive : Bool) : Path :=
  { toStringIndex := StringIndex.reset case_sensitive,
    root := rstripSep root, path2rid := [], rid2path := [], parts := [],
    levels := [] }

/-- `Path.learn(self, rid, value)`.  `String.learn` runs FIRST; only then
is the value checked to be absolute (`elif value and not
value.startswith(os.sep)`), so a raising check leaves the inherited
substring maps already mutated, and the empty string (falsy) skips the
check entirely.  Note the source splits `value` — not the lowercased,
rstripped `path` — into segments. -/
def plearnStep (segs : List String) (rid : Nat) (q : Path) (level : Nat) : Path :=
  let token_ : Nat × String := (level, segs.getD level "")
  { q with parts := addTo q.parts token_ rid,
           rids := match dlookup q.rids rid with
             | none => dset q.rids rid [STok.tok token_]
             | some s => dset q.rids rid (osetInsert s (.tok token_)) }

def Path.learn (p : Path) (rid : Nat) (value : String) : Path × Option Err :=
  let p1 : Path := { p with toStringIndex := p.toStringIndex.learn rid value }
  if value ≠ "" ∧ ¬ startsSep value then (p1, some .valueError)
  else
    let path := if p1.case_sensitive then value else lowerStr value
    let path := rstripSep path
    let parts := splitStr '/' value
    let p2 : Path := { p1 with path2rid := dset p1.path2rid path rid,
                               rid2path := dset p1.rid2path rid path }
    let p3 : Path := (List.range parts.length).foldl (plearnStep parts rid) p2
    ({ p3 with levels := addTo p3.levels (parts.length - 1) rid }, none)

/-- `Path._path_and_limits` limit-token parsing: `if not upper: upper =
None`, else digits required. -/
def parseLimit (s : String) : Except Err (Option Nat) :=
  if s = "" then .ok none
  else if s.data.all Char.isDigit then .ok (some (digitsToNat s.data))
  else .error .valueError

/-- The tail of `Path._path_and_limits`: `if path == os.sep: path = ''`,
then lowercase when case-insensitive. -/
def pathFinish (cs : Bool) (path0 : String) : String :=
  let path := if path0 = "/" then "" else path0
  if cs then path else lowerStr path

/-- `Path._path_and_limits(self, arg)`: split the constraint argument into
`<path> [<upper>:<lower>]`; `assert nparts in (1, 2)`; exactly one colon in
the limits; digit bounds; `upper ≤ lower` when both are given. -/
def Path.pathAndLimits (p : Path) (arg : String) :
    Except Err (String × Option Nat × Option Nat) :=
  match splitWs arg with
  | [path0] => .ok (pathFinish p.case_sensitive path0, none, none)
  | [path0, limits] =>
    if limits.data.count ':' ≠ 1 then .error .valueError
    else
      match splitStr ':' limits with
      | [u, l] =>
        match parseLimit u with
        | .error e => .error e
        | .ok upper =>
          match parseLimit l with
          | .error e => .error e
          | .ok lower =>
            match upper, lower with
            | some uv, some lv =>
              if uv > lv then .error .valueError
              else .ok (pathFinish p.case_sensitive path0, some uv, some lv)
            | _, _ => .ok (pathFinish p.case_sensitive path0, upper, lower)
      | _ => .error .valueError
  | _ => .error .assertionError

/-- The `for level in range(len(parts)): rids = intersection(rids,
self.parts[(level, parts[level])])` loop of `Path.below`.  `self.parts[…]`
raises `KeyError` on a missing token; BTrees `intersection(None, s) = s`. -/
def interLoop (pm : List ((Nat × String) × RSet)) (segs : List String) :
    Option RSet → List Nat → Except Err (Option RSet)
  | acc, [] => .ok acc
  | acc, level :: rest =>
    match dlookup pm (level, segs.getD level "") with
    | none => .error .keyError
    | some s =>
      interLoop pm segs (some (match acc with | none => s | some a => a ∩ s)) rest

/-- The upper-limit loop of `Path.below`: subtract `levels[i]` for
`i ∈ range(level, upper)`, BREAKING at the first level absent from
`levels`. -/
def upperLoop (levels : List (Nat × RSet)) : RSet → List Nat → RSet
  | rids, [] => rids
  | rids, i :: rest =>
    match dlookup levels i with
    | none => rids
    | some s => upperLoop levels (rids \ s) rest

/-- The lower-limit collection loop of `Path.below`: collect `levels[i]`
for `i ∈ range(level, lower)`, BREAKING at the first absent level. -/
def collectLoop (levels : List (Nat × RSet)) : List Nat → List RSet
  | [] => []
  | i :: rest =>
    match dlookup levels i with
    | none => []
    | some s => s :: collectLoop levels rest

/-- BTrees `multiunion`. -/
def multiunionF (l : List RSet) : RSet := l.foldl (fun a b => a ∪ b) ∅

/-- The Limits phase of `Path.below`: `upper += level; for i in
range(level, upper): …` then `lower += level; …` (each loop breaking at the
first level absent from `levels`). -/
def belowLimits (levels : List (Nat × RSet)) (level : Nat)
    (upper lower : Option Nat) (rids0 : RSet) : RSet :=
  let rids1 := match upper with
    | none => rids0
    | some u => upperLoop levels rids0 (List.range' level u)
  match lower with
  | none => rids1
  | some lo => rids1 ∩ multiunionF (collectLoop levels (List.range' level lo))

/-- `Path.below(self, arg)`.  An unknown path hits `return` — Python
`None`, embedded as `.ok none`, which is NOT an empty rid-set. -/
def Path.below (p : Path) (arg : String) : Except Err (Option RSet) :=
  match p.pathAndLimits arg with
  | .error e => .error e
  | .ok (path, upper, lower) =>
    match dlookup p.path2rid path with
    | none => .ok none
    | some _ =>
      let parts := splitStr '/' path
      match interLoop p.parts parts none (List.range parts.length) with
      | .error e => .error e
      | .ok none => .ok (some ∅)
      | .ok (some rids0) =>
        .ok (some (belowLimits p.levels (parts.length - 1) upper lower rids0))

/-- `Path.above(self, arg)`: for every ancestor of the parsed path call
`below` with the same limits (defaulting to `0:1`), `multiunion` the
results — and then fall off the end of the function, returning Python
`None` (`.ok none`).  A `below` result of `None` fed to `multiunion`
raises `TypeError`. -/
def aboveLimitsStr (upper lower : Option Nat) : String :=
  if upper = none ∧ lower = none then "0:1"
  else (match upper with | some u => toString u | none => "") ++ ":" ++
       (match lower with | some l => toString l | none => "")

/-- The Build phase of `Path.above`: call `below` on every ancestor with
the limits template, `multiunion` the results — and then return nothing
(the computed union is dropped on the floor). -/
def aboveTail (p : Path) (limitsStr : String) (parts : List String) :
    Except Err (Option RSet) :=
  match (List.range parts.length).mapM (fun level =>
      let ancestor := joinSep (parts.take (level + 1))
      let ancestor := if ancestor = "" then "/" else ancestor
      p.below (ancestor ++ " " ++ limitsStr)) with
  | .error e => .error e
  | .ok results =>
    if results.any (fun r => r.isNone) then .error .typeError
    else
      let _rids := multiunionF (results.map (fun r => r.getD ∅))
      .ok none

def Path.above (p : Path) (arg : String) : Except Err (Option RSet) :=
  match p.pathAndLimits arg with
  | .error e => .error e
  | .ok (path, upper, lower) =>
    match dlookup p.path2rid path with
    | none => .ok none
    | some _ =>
      aboveTail p (aboveLimitsStr upper lower) (splitStr '/' path)

/-- C10: `Path.learn` is not atomic on error: it delegates to
`String.learn` BEFORE validating that the value is an absolute path, so for
every non-empty relative value the BadValue (`ValueError`) is raised only
after the inherited substring maps (values, beginnings, middles, endings —
and the shared `rids` map) have already been mutated, exactly as by
`String.learn`; and the empty-string value is falsy, bypasses the
absoluteness check entirely, and is accepted. -/
theorem C10_path_learn_not_atomic (p : Path) (rid : Nat) (v : String)
    (h1 : v ≠ "") (h2 : ¬ startsSep v) :
    p.learn rid v =
      ({ p with toStringIndex := p.toStringIndex.learn rid v },
        some Err.valueError) ∧
    (p.learn rid "").2 = none := by
  constructor
  · simp only [Path.learn]
    rw [if_pos ⟨h1, h2⟩]
  · have hcond : ¬ (("" : String) ≠ "" ∧ ¬ startsSep "") := by simp
    simp only [Path.learn]
    rw [if_neg hcond]

/-- Witness for C10 at a concrete input: the relative value "rel" and the
empty value, on a fresh case-sensitive Path index. -/
theorem C10_path_learn_not_atomic_witness :
    (Path.mk0 "/" true).learn 1 "rel" =
      ({ Path.mk0 "/" true with
          toStringIndex := (Path.mk0 "/" true).toStringIndex.learn 1 "rel" },
        some Err.valueError) ∧
    ((Path.mk0 "/" true).learn 1 "").2 = none :=
  C10_path_learn_not_atomic (Path.mk0 "/" true) 1 "rel" (by decide) (by decide)

/-- C4 (code bug): `Path.above` builds the union of `below` over the
ancestor chain but never returns it — the function falls off its end, so
every non-raising call returns Python `None`, never the claimed rid-set
(the spec itself flags this in §9: "builds the union but never returns it").
On states where some ancestor is unindexed the collected `None` from
`below` makes `multiunion` raise `TypeError` instead. -/
theorem C4_path_above_never_returns_the_union (p : Path) (arg : String) :
    p.above arg = .ok none ∨ ∃ e, p.above arg = .error e := by
  have tail : ∀ (ls : String) (parts : List String),
      aboveTail p ls parts = .ok none ∨ ∃ e, aboveTail p ls parts = .error e := by
    intro ls parts
    unfold aboveTail
    split
    · exact Or.inr ⟨_, rfl⟩
    · split
      · exact Or.inr ⟨_, rfl⟩
      · exact Or.inl rfl
  unfold Path.above
  split
  · exact Or.inr ⟨_, rfl⟩
  · split
    · exact Or.inl rfl
    · exact tail _ _

/-- The concrete failing input for C4: a case-sensitive Path index that
learned rid 1 at "/" and rid 2 at "/a".  `above("/a")` should return the
ancestor-chain rids `{1, 2}`; the code returns `None`. -/
def abovePathEx : Path := (((Path.mk0 "/" true).learn 1 "/").1.learn 2 "/a").1

/-- Supporting evaluation for C4's failing input: both learns succeeded
(both paths are indexed), yet `above("/a")` returns `None` rather than a
rid-set. -/
theorem above_concrete_returns_none :
    abovePathEx.above "/a" = .ok none ∧
    dlookup abovePathEx.path2rid "" = some 1 ∧
    dlookup abovePathEx.path2rid "/a" = some 2 := by
  refine ⟨by decide, by decide, by decide⟩

/-! ### Reachable Path-index states and the token invariant -/

/-- Path-index states produced by `reset()` followed by successful `learn`
calls.  (`forget` is excluded: it delegates to the broken `String.forget`
first and never completes, see C2.) -/
inductive Path.Reach : Path → Prop where
  | reset (root : String) (cs : Bool) : Path.Reach (Path.mk0 root cs)
  | learn (p : Path) (rid : Nat) (v : String) (st' : Path) :
      Path.Reach p → p.learn rid v = (st', none) → Path.Reach st'

/-- On a case-sensitive Path index, every indexed path has all its
`(level, segment)` prefix tokens present in `parts`, holding its rid. -/
def PInv (p : Path) : Prop :=
  p.case_sensitive = true →
  ∀ path rid, dlookup p.path2rid path = some rid →
    ∀ l, l < (splitStr '/' path).length →
      rid ∈ lookupD p.parts (l, (splitStr '/' path).getD l "")

theorem splitStr_ne_nil (sep : Char) (s : String) : splitStr sep s ≠ [] := by
  unfold splitStr
  intro h
  exact splitIf_ne_nil _ _ (List.map_eq_nil.mp h)

theorem fold_plearnStep_cs (segs : List String) (rid : Nat) :
    ∀ (l : List Nat) (q : Path),
      (l.foldl (plearnStep segs rid) q).case_sensitive = q.case_sensitive := by
  intro l
  induction l with
  | nil => intro q; rfl
  | cons i rest ih => intro q; exact ih (plearnStep segs rid q i)

theorem fold_plearnStep_path2rid (segs : List String) (rid : Nat) :
    ∀ (l : List Nat) (q : Path),
      (l.foldl (plearnStep segs rid) q).path2rid = q.path2rid := by
  intro l
  induction l with
  | nil => intro q; rfl
  | cons i rest ih => intro q; exact ih (plearnStep segs rid q i)

theorem fold_plearnStep_parts (segs : List String) (rid : Nat) :
    ∀ (l : List Nat) (q : Path),
      (l.foldl (plearnStep segs rid) q).parts =
        l.foldl (fun pm level => addTo pm (level, segs.getD level "") rid) q.parts := by
  intro l
  induction l with
  | nil => intro q; rfl
  | cons i rest ih =>
    intro q
    simp only [List.foldl]
    rw [ih]
    rfl

theorem fold_addTo_tok_mem (segs : List String) (rid : Nat) (l : Nat)
    (hl : l < segs.length) (pm : List ((Nat × String) × RSet)) :
    rid ∈ lookupD
      ((List.range segs.length).foldl
        (fun pm level => addTo pm (level, segs.getD level "") rid) pm)
      (l, segs.getD l "") := by
  refine foldl_est (fun pm level => addTo pm (level, segs.getD level "") rid)
    (fun pm => rid ∈ lookupD pm (l, segs.getD l ""))
    (fun s a hs => lookupD_addTo_mono _ _ _ _ _ hs)
    ?_ _ (List.mem_range.mpr hl) _
  intro s
  exact mem_lookupD_addTo _ _ _

theorem fold_addTo_tok_mono (segs : List String) (rid : Nat)
    (key : Nat × String) (x : Nat) (pm : List ((Nat × String) × RSet))
    (h : x ∈ lookupD pm key) :
    x ∈ lookupD
      ((List.range segs.length).foldl
        (fun pm level => addTo pm (level, segs.getD level "") rid) pm) key :=
  foldl_pres _ (fun pm => x ∈ lookupD pm key)
    (fun s a hs => lookupD_addTo_mono _ _ _ _ _ hs) _ pm h

theorem pinv_learn {p : Path} (hinv : PInv p) (rid : Nat) (v : String)
    (st' : Path) (hl : p.learn rid v = (st', none)) : PInv st' := by
  unfold Path.learn at hl
  split at hl
  · exact absurd (congrArg Prod.snd hl) (by simp)
  · -- success branch: extract the components of st'
    have hst : st' =
        { (List.range (splitStr '/' v).length).foldl (plearnStep (splitStr '/' v) rid)
            { p with toStringIndex := p.toStringIndex.learn rid v,
                     path2rid := dset p.path2rid
                       (rstripSep (if p.case_sensitive then v else lowerStr v)) rid,
                     rid2path := dset p.rid2path rid
                       (rstripSep (if p.case_sensitive then v else lowerStr v)) } with
          levels := addTo
            ((List.range (splitStr '/' v).length).foldl (plearnStep (splitStr '/' v) rid)
              { p with toStringIndex := p.toStringIndex.learn rid v,
                       path2rid := dset p.path2rid
                         (rstripSep (if p.case_sensitive then v else lowerStr v)) rid,
                       rid2path := dset p.rid2path rid
                         (rstripSep (if p.case_sensitive then v else lowerStr v)) }).levels
            ((splitStr '/' v).length - 1) rid } := by
      have := congrArg Prod.fst hl
      exact this.symm
    subst hst
    intro hcs path0 rid0 hlook l hll
    simp only at hcs hlook hll ⊢
    rw [fold_plearnStep_cs] at hcs
    rw [fold_plearnStep_path2rid] at hlook
    rw [fold_plearnStep_parts]
    have hcs2 : p.case_sensitive = true := by
      have h1 : (p.toStringIndex.learn rid v).case_sensitive =
          p.toStringIndex.case_sensitive := learn_case_sensitive p.toStringIndex rid v
      rw [← h1]
      exact hcs
    simp [hcs2] at hlook
    by_cases hpp : path0 = rstripSep v
    · subst hpp
      rw [dlookup_dset_self] at hlook
      have hrr : rid0 = rid := by
        injection hlook with hh
        exact hh.symm
      subst hrr
      have hpre : splitStr '/' (rstripSep v) <+: splitStr '/' v :=
        splitStr_rstrip_prefix v
      have hlen : (splitStr '/' (rstripSep v)).length ≤ (splitStr '/' v).length :=
        hpre.length_le
      have hgd : (splitStr '/' v).getD l "" = (splitStr '/' (rstripSep v)).getD l "" :=
        getD_of_prefix hpre "" l hll
      rw [← hgd]
      exact fold_addTo_tok_mem (splitStr '/' v) rid0 l (by omega) _
    · rw [dlookup_dset_ne _ _ hpp] at hlook
      have := hinv hcs2 path0 rid0 hlook l hll
      exact fold_addTo_tok_mono (splitStr '/' v) rid _ rid0 _ this

theorem path_reach_inv {p : Path} (h : Path.Reach p) : PInv p := by
  induction h with
  | reset root cs =>
    intro _ path rid hlook
    simp [Path.mk0, StringIndex.reset, dlookup] at hlook
  | learn p rid v st' hr hl ih => exact pinv_learn ih rid v st' hl

/-! ### Characterizations of the `below` loops -/

theorem mem_of_mem_lookupD {K : Type} [DecidableEq K] {m : List (K × RSet)}
    {k : K} {x : Nat} (h : x ∈ lookupD m k) : (dlookup m k).isSome := by
  unfold lookupD at h
  cases hm : dlookup m k with
  | none => rw [hm] at h; simp at h
  | some s => rfl

theorem interLoop_some_char (pm : List ((Nat × String) × RSet)) (segs : List String) :
    ∀ (idx : List Nat) (A : RSet),
      (∀ l ∈ idx, (dlookup pm (l, segs.getD l "")).isSome) →
      ∃ R, interLoop pm segs (some A) idx = .ok (some R) ∧
        ∀ r, r ∈ R ↔ r ∈ A ∧ ∀ l ∈ idx, r ∈ lookupD pm (l, segs.getD l "") := by
  intro idx
  induction idx with
  | nil =>
    intro A _
    exact ⟨A, rfl, fun r => by simp⟩
  | cons l0 rest ih =>
    intro A hall
    have h0 : (dlookup pm (l0, segs.getD l0 "")).isSome :=
      hall l0 (List.mem_cons_self _ _)
    obtain ⟨s, hs⟩ := Option.isSome_iff_exists.mp h0
    obtain ⟨R, hR, hchar⟩ := ih (A ∩ s) (fun l hl => hall l (List.mem_cons_of_mem _ hl))
    refine ⟨R, ?_, ?_⟩
    · unfold interLoop
      rw [hs]
      exact hR
    · intro r
      rw [hchar r]
      have hls : lookupD pm (l0, segs.getD l0 "") = s := by
        unfold lookupD
        rw [hs]
        rfl
      simp only [List.mem_cons, Finset.mem_inter]
      constructor
      · rintro ⟨⟨hA, hsmem⟩, hrest⟩
        refine ⟨hA, ?_⟩
        rintro l (rfl | hl)
        · rw [hls]; exact hsmem
        · exact hrest l hl
      · rintro ⟨hA, hboth⟩
        refine ⟨⟨hA, ?_⟩, fun l hl => hboth l (Or.inr hl)⟩
        have := hboth l0 (Or.inl rfl)
        rw [hls] at this
        exact this

theorem interLoop_none_char (pm : List ((Nat × String) × RSet)) (segs : List String)
    (idx : List Nat) (hne : idx ≠ [])
    (hall : ∀ l ∈ idx, (dlookup pm (l, segs.getD l "")).isSome) :
    ∃ R, interLoop pm segs none idx = .ok (some R) ∧
      ∀ r, r ∈ R ↔ ∀ l ∈ idx, r ∈ lookupD pm (l, segs.getD l "") := by
  cases idx with
  | nil => exact absurd rfl hne
  | cons l0 rest =>
    have h0 : (dlookup pm (l0, segs.getD l0 "")).isSome :=
      hall l0 (List.mem_cons_self _ _)
    obtain ⟨s, hs⟩ := Option.isSome_iff_exists.mp h0
    obtain ⟨R, hR, hchar⟩ := interLoop_some_char pm segs rest s
      (fun l hl => hall l (List.mem_cons_of_mem _ hl))
    refine ⟨R, ?_, ?_⟩
    · unfold interLoop
      rw [hs]
      exact hR
    · intro r
      rw [hchar r]
      have hls : lookupD pm (l0, segs.getD l0 "") = s := by
        unfold lookupD
        rw [hs]
        rfl
      simp only [List.mem_cons]
      constructor
      · rintro ⟨hsmem, hrest⟩
        rintro l (rfl | hl)
        · rw [hls]; exact hsmem
        · exact hrest l hl
      · intro hboth
        refine ⟨?_, fun l hl => hboth l (Or.inr hl)⟩
        have := hboth l0 (Or.inl rfl)
        rw [hls] at this
        exact this

theorem upperLoop_mem (levels : List (Nat × RSet)) :
    ∀ (l : List Nat) (R : RSet) (r : Nat),
      r ∈ upperLoop levels R l ↔
        r ∈ R ∧ ∀ i ∈ l.takeWhile (fun i => (dlookup levels i).isSome),
          r ∉ lookupD levels i := by
  intro l
  induction l with
  | nil => intro R r; simp [upperLoop]
  | cons i rest ih =>
    intro R r
    cases hi : dlookup levels i with
    | none =>
      unfold upperLoop
      rw [hi]
      simp [List.takeWhile, hi]
    | some s =>
      unfold upperLoop
      rw [hi]
      rw [ih]
      have hls : lookupD levels i = s := by unfold lookupD; rw [hi]; rfl
      simp only [List.takeWhile, hi, Option.isSome_some, List.mem_cons,
        Finset.mem_sdiff]
      constructor
      · rintro ⟨⟨hR, hns⟩, hrest⟩
        refine ⟨hR, ?_⟩
        rintro j (rfl | hj)
        · rw [hls]; exact hns
        · exact hrest j hj
      · rintro ⟨hR, hall⟩
        refine ⟨⟨hR, ?_⟩, fun j hj => hall j (Or.inr hj)⟩
        have := hall i (Or.inl rfl)
        rw [hls] at this
        exact this

theorem mem_multiunionF (L : List RSet) (r : Nat) :
    r ∈ multiunionF L ↔ ∃ s ∈ L, r ∈ s := by
  have aux : ∀ (L : List RSet) (acc : RSet),
      r ∈ L.foldl (fun a b => a ∪ b) acc ↔ r ∈ acc ∨ ∃ s ∈ L, r ∈ s := by
    intro L
    induction L with
    | nil => intro acc; simp
    | cons s rest ih =>
      intro acc
      simp only [List.foldl]
      rw [ih]
      simp only [Finset.mem_union, List.mem_cons]
      constructor
      · rintro (( h | h) | ⟨t, ht, hr⟩)
        · exact Or.inl h
        · exact Or.inr ⟨s, Or.inl rfl, h⟩
        · exact Or.inr ⟨t, Or.inr ht, hr⟩
      · rintro (h | ⟨t, (rfl | ht), hr⟩)
        · exact Or.inl (Or.inl h)
        · exact Or.inl (Or.inr hr)
        · exact Or.inr ⟨t, ht, hr⟩
  rw [multiunionF, aux]
  simp

theorem collect_mem (levels : List (Nat × RSet)) :
    ∀ (l : List Nat) (r : Nat),
      r ∈ multiunionF (collectLoop levels l) ↔
        ∃ i ∈ l.takeWhile (fun i => (dlookup levels i).isSome),
          r ∈ lookupD levels i := by
  intro l
  induction l with
  | nil => intro r; simp [collectLoop, multiunionF]
  | cons i rest ih =>
    intro r
    cases hi : dlookup levels i with
    | none =>
      unfold collectLoop
      rw [hi]
      simp [List.takeWhile, hi, multiunionF]
    | some s =>
      unfold collectLoop
      rw [hi]
      have hls : lookupD levels i = s := by unfold lookupD; rw [hi]; rfl
      rw [mem_multiunionF]
      simp only [List.takeWhile, hi, Option.isSome_some, List.mem_cons]
      constructor
      · rintro ⟨t, (rfl | ht), hr⟩
        · exact ⟨i, Or.inl rfl, by rw [hls]; exact hr⟩
        · have := (ih r).mp ((mem_multiunionF _ _).mpr ⟨t, ht, hr⟩)
          obtain ⟨j, hj, hrj⟩ := this
          exact ⟨j, Or.inr hj, hrj⟩
      · rintro ⟨j, (rfl | hj), hrj⟩
        · exact ⟨s, Or.inl rfl, by rw [hls] at hrj; exact hrj⟩
        · have := (ih r).mpr ⟨j, hj, hrj⟩
          rw [mem_multiunionF] at this
          obtain ⟨t, ht, hr⟩ := this
          exact ⟨t, Or.inr ht, hr⟩

theorem belowLimits_mem (levels : List (Nat × RSet)) (level : Nat)
    (upper lower : Option Nat) (rids0 : RSet) (r : Nat) :
    r ∈ belowLimits levels level upper lower rids0 ↔
      r ∈ rids0 ∧
      (∀ u, upper = some u →
        ∀ i ∈ (List.range' level u).takeWhile (fun i => (dlookup levels i).isSome),
          r ∉ lookupD levels i) ∧
      (∀ lo, lower = some lo →
        ∃ i ∈ (List.range' level lo).takeWhile (fun i => (dlookup levels i).isSome),
          r ∈ lookupD levels i) := by
  cases upper with
  | none =>
    cases lower with
    | none => simp [belowLimits]
    | some lo =>
      simp only [belowLimits, Finset.mem_inter, collect_mem]
      constructor
      · rintro ⟨h0, hc⟩
        exact ⟨h0, by simp, fun lo' hlo' => by
          injection hlo' with hh
          subst hh
          exact hc⟩
      · rintro ⟨h0, _, hc⟩
        exact ⟨h0, hc lo rfl⟩
  | some u =>
    cases lower with
    | none =>
      simp only [belowLimits, upperLoop_mem]
      constructor
      · rintro ⟨h0, hu⟩
        exact ⟨h0, fun u' hu' => by
          injection hu' with hh
          subst hh
          exact hu, by simp⟩
      · rintro ⟨h0, hu, _⟩
        exact ⟨h0, hu u rfl⟩
    | some lo =>
      simp only [belowLimits, Finset.mem_inter, upperLoop_mem, collect_mem]
      constructor
      · rintro ⟨⟨h0, hu⟩, hc⟩
        exact ⟨h0, fun u' hu' => by
          injection hu' with hh
          subst hh
          exact hu, fun lo' hlo' => by
          injection hlo' with hh
          subst hh
          exact hc⟩
      · rintro ⟨h0, hu, hc⟩
        exact ⟨⟨h0, hu u rfl⟩, hc lo rfl⟩

/-- The counterexample states for C5: `gapPathEx` has rids only at levels 1
and 3 (paths "/a" and "/a/b/c"), so `levels` has a gap at level 2;
`ciPathEx` is case-insensitive and learned the mixed-case path "/A". -/
def gapPathEx : Path := (((Path.mk0 "/" true).learn 1 "/a").1.learn 3 "/a/b/c").1

def ciPathEx : Path := ((Path.mk0 "/" false).learn 1 "/A").1

/-- Counterexample for C5, refuting the claim as stated at concrete inputs:

1. an unknown path makes `below` return Python `None` (`.ok none`), which
   is not the claimed empty rid-set (`.ok (some ∅)`);
2. the limit loops break at the first level missing from `levels`, so they
   do not cover the claimed whole window `[level, level+lower)`:
   on `gapPathEx`, `below("/a 0:4")` returns `{1}` even though rid 3 lies
   in the subtree of "/a" (third conjunct) at level 3 ∈ [1, 5) (fourth
   conjunct), so the claimed result would contain 3;
3. for a case-insensitive index the claim fails for an indexed path
   altogether: `learn` keys `parts` with the original-case segments while
   `below` looks up the lowercased ones, raising `KeyError`. -/
theorem C5_path_below_counterexample :
    (Path.mk0 "/" true).below "/x" = .ok none ∧
    (Except.ok none : Except Err (Option RSet)) ≠ .ok (some (∅ : RSet)) ∧
    gapPathEx.below "/a 0:4" = .ok (some {1}) ∧
    (∀ l, l < (splitStr '/' "/a").length →
      3 ∈ lookupD gapPathEx.parts (l, (splitStr '/' "/a").getD l "")) ∧
    3 ∈ lookupD gapPathEx.levels 3 ∧
    ciPathEx.below "/a" = .error Err.keyError := by
  refine ⟨by decide, by decide, by decide, by decide, by decide, by decide⟩

/-- C5 as amended: for a case-sensitive Path index in a state reachable by
successful learns, `below(arg)` whose parsed path is not in `path2rid`
returns `None` (not an empty set); for an indexed path it returns exactly
the set of rids lying in `parts[(l, segments[l])]` for every level `l` of
the path, minus — when `upper` is given — the rids at the levels of the
contiguous run of levels present in `levels` within `[level, level+upper)`,
and — when `lower` is given — retaining only rids at the levels of the
contiguous run of present levels within `[level, level+lower)` (each limit
loop breaks at the first level absent from `levels`). -/
theorem C5_path_below_amended (p : Path) (hreach : Path.Reach p)
    (hcs : p.case_sensitive = true) (arg path : String) (upper lower : Option Nat)
    (hparse : p.pathAndLimits arg = .ok (path, upper, lower)) :
    (dlookup p.path2rid path = none → p.below arg = .ok none) ∧
    (∀ rid0, dlookup p.path2rid path = some rid0 →
      ∃ R, p.below arg = .ok (some R) ∧
        ∀ r, r ∈ R ↔
          ((∀ l, l < (splitStr '/' path).length →
              r ∈ lookupD p.parts (l, (splitStr '/' path).getD l "")) ∧
           (∀ u, upper = some u →
              ∀ i ∈ (List.range' ((splitStr '/' path).length - 1) u).takeWhile
                  (fun i => (dlookup p.levels i).isSome),
                r ∉ lookupD p.levels i) ∧
           (∀ lo, lower = some lo →
              ∃ i ∈ (List.range' ((splitStr '/' path).length - 1) lo).takeWhile
                  (fun i => (dlookup p.levels i).isSome),
                r ∈ lookupD p.levels i))) := by
  constructor
  · intro hnone
    unfold Path.below
    rw [hparse]
    simp [hnone]
  · intro rid0 hlook
    have hinv := path_reach_inv hreach hcs path rid0 hlook
    have hall : ∀ l ∈ List.range (splitStr '/' path).length,
        (dlookup p.parts (l, (splitStr '/' path).getD l "")).isSome := by
      intro l hl
      exact mem_of_mem_lookupD (hinv l (List.mem_range.mp hl))
    have hne : List.range (splitStr '/' path).length ≠ [] := by
      rw [Ne, List.range_eq_nil]
      intro h0
      exact splitStr_ne_nil '/' path (List.length_eq_zero.mp h0)
    obtain ⟨R0, hIL, hchar0⟩ :=
      interLoop_none_char p.parts (splitStr '/' path) _ hne hall
    have hc0 : ∀ r, r ∈ R0 ↔ ∀ l, l < (splitStr '/' path).length →
        r ∈ lookupD p.parts (l, (splitStr '/' path).getD l "") := by
      intro r
      rw [hchar0 r]
      constructor
      · intro h l hl
        exact h l (List.mem_range.mpr hl)
      · intro h l hl
        exact h l (List.mem_range.mp hl)
    refine ⟨belowLimits p.levels ((splitStr '/' path).length - 1) upper lower R0,
      ?_, ?_⟩
    · unfold Path.below
      rw [hparse]
      simp [hlook, hIL]
    · intro r
      rw [belowLimits_mem, hc0 r]

/-- The concrete reachable state used by the C5 witness. -/
def belowPathEx : Path := ((Path.mk0 "/" true).learn 1 "/a").1

/-- Witness for C5 (amended) at a concrete input: the reachable
case-sensitive index that learned rid 1 at "/a", queried with `below "/a"`,
returns a set containing 1. -/
theorem C5_path_below_amended_witness :
    ∃ R, belowPathEx.below "/a" = .ok (some R) ∧ 1 ∈ R := by
  have hreach : Path.Reach belowPathEx := by
    have h2 : ((Path.mk0 "/" true).learn 1 "/a").2 = none := by decide
    have hx : (Path.mk0 "/" true).learn 1 "/a" =
        (belowPathEx, ((Path.mk0 "/" true).learn 1 "/a").2) := rfl
    rw [h2] at hx
    exact Path.Reach.learn _ 1 "/a" _ (Path.Reach.reset "/" true) hx
  have hcs : belowPathEx.case_sensitive = true := by decide
  have hparse : belowPathEx.pathAndLimits "/a" = .ok ("/a", none, none) := by decide
  have hlook : dlookup belowPathEx.path2rid "/a" = some 1 := by decide
  obtain ⟨R, hb, hchar⟩ :=
    (C5_path_below_amended belowPathEx hreach hcs "/a" "/a" none none hparse).2 1 hlook
  refine ⟨R, hb, ?_⟩
  rw [hchar 1]
  refine ⟨by decide, ?_, ?_⟩
  · intro u hu
    cases hu
  · intro lo hlo
    cases hlo

end Dewey
